import Mathlib

/-!
Verification of the pairwise-prioritiser sorting engine.

This file is a shallow embedding, in Lean 4, of the TypeScript sources

  * `src/domain/sortingEngine/cache.ts`  (comparison cache, transitive closure)
  * `src/domain/sortingEngine/mergeEngine.ts`  (merge engine)
  * `src/domain/types.ts` / `src/domain/sortingEngine/types.ts`  (data model)

JavaScript `Map` objects are modelled as association lists in insertion
order (JS `Map.set` on an existing key updates the value in place, keeping
the key's position; a new key is appended at the end).  Plain records
(`Record<string, CompareResult>`) are modelled by the same association-list
type; string-keyed objects whose keys contain `|` preserve insertion order
in JS, so the identification is faithful.  TypeScript numbers used here are
small integers (`-1 | 0 | 1` and counters), modelled as `Int`/`Nat`.
Recursive functions of the source (`requestNextPair`) are modelled with an
explicit fuel parameter; `none` means the fuel ran out, which never happens
for well-formed states given enough fuel.
-/

open scoped List

/-- Item identifier (`TaskId` in `domain/types.ts`): a string. -/
abbrev TaskId := String

/-- `CompareResult = -1 | 0 | 1` from `domain/types.ts`. -/
abbrev CompareResult := Int

/-- Underlying storage of the comparison cache: a JS `Map<string, CompareResult>`
as an association list in insertion order. -/
abbrev CacheMap := List (String × Int)

/-- JS `Map.get`. -/
def mapGet : CacheMap → String → Option Int
  | [], _ => none
  | (k', v') :: rest, k => if k' = k then some v' else mapGet rest k

/-- JS `Map.set`: update in place if the key exists (first occurrence),
otherwise append at the end. -/
def mapSet : CacheMap → String → Int → CacheMap
  | [], k, v => [(k, v)]
  | (k', v') :: rest, k, v =>
    if k' = k then (k, v) :: rest else (k', v') :: mapSet rest k v

/-- JS `Map.has`. -/
def mapHas (m : CacheMap) (k : String) : Bool := (mapGet m k).isSome

/-- `createCacheKey` from `cache.ts`: the order-smaller identifier first,
joined by `|`.  The JS string order `a < b` is lexicographic; it is compared
here on the character lists (`String.lt_iff_toList_lt`), which is the same
relation with a kernel-reducible decision procedure. -/
def createCacheKey (a b : TaskId) : String :=
  if a.data < b.data then a ++ "|" ++ b else b ++ "|" ++ a

/-- `normalizeResult` from `cache.ts`: flip the result if the operands were
swapped relative to canonical order. -/
def normalizeResult (a b : TaskId) (result : Int) : Int :=
  if a.data < b.data then result else if result = 0 then 0 else -result

/-- `createComparisonCache(initialData)` from `cache.ts`: insert the record's
entries into a fresh `Map` in order. -/
def cacheFromRecord (initialData : CacheMap) : CacheMap :=
  initialData.foldl (fun m kv => mapSet m kv.1 kv.2) []

/-- The cache's `get(a, b)`: look up the canonical key, then re-orient. -/
def cGet (m : CacheMap) (a b : TaskId) : Option Int :=
  (mapGet m (createCacheKey a b)).map (normalizeResult a b)

/-- The cache's `set(a, b, result)`: store under the canonical key with the
normalized orientation. -/
def cSet (m : CacheMap) (a b : TaskId) (result : Int) : CacheMap :=
  mapSet m (createCacheKey a b) (normalizeResult a b result)

/-- The cache's `has(a, b)`. -/
def cHas (m : CacheMap) (a b : TaskId) : Bool :=
  mapHas m (createCacheKey a b)

/-- The cache's `toRecord()`: dump the `Map` (in iteration order) into a plain
record; the identity on the association-list model. -/
def cacheToRecord (m : CacheMap) : CacheMap := m

/-- The cache's `fromRecord(record)`: `clear()` then insert every entry of the
record; the previous contents (first argument) are discarded. -/
def cacheFromRecordOp (_old : CacheMap) (record : CacheMap) : CacheMap :=
  record.foldl (fun m kv => mapSet m kv.1 kv.2) []

/-- Representation invariant of a JS `Map`: keys are pairwise distinct. -/
def DistinctKeys (m : CacheMap) : Prop := (m.map Prod.fst).Nodup

instance : DecidablePred DistinctKeys := fun m =>
  inferInstanceAs (Decidable ((m.map Prod.fst).Nodup))

/-- The inverse of a comparison result: `less` and `greater` swap, `equal`
stays (`-1 ↦ 1`, `1 ↦ -1`, `0 ↦ 0`). -/
def invResult (r : Int) : Int := if r = 0 then 0 else -r

/-- Two optional results are mutually inverse, or both absent. -/
def MutuallyInverse : Option Int → Option Int → Prop
  | none, none => True
  | some r, some r' => r' = invResult r
  | _, _ => False

instance : ∀ o o', Decidable (MutuallyInverse o o')
  | none, none => isTrue trivial
  | some _, some _ => inferInstanceAs (Decidable (_ = _))
  | none, some _ => isFalse id
  | some _, none => isFalse id

-- Basic map lemmas

theorem mapGet_mapSet_self (m : CacheMap) (k : String) (v : Int) :
    mapGet (mapSet m k v) k = some v := by
  induction m with
  | nil => simp [mapGet, mapSet]
  | cons kv rest ih =>
    obtain ⟨k', v'⟩ := kv
    by_cases h : k' = k
    · simp [mapGet, mapSet, h]
    · simp [mapGet, mapSet, h, ih]

theorem mapGet_mapSet_ne (m : CacheMap) (k k' : String) (v : Int) (h : k ≠ k') :
    mapGet (mapSet m k v) k' = mapGet m k' := by
  induction m with
  | nil => simp [mapGet, mapSet, h]
  | cons kv rest ih =>
    obtain ⟨k₀, v₀⟩ := kv
    by_cases h₀ : k₀ = k
    · subst h₀
      simp [mapGet, mapSet, h]
    · simp only [mapSet, if_neg h₀]
      by_cases h₁ : k₀ = k'
      · simp [mapGet, h₁]
      · simp [mapGet, h₁, ih]

theorem mapHas_mapSet (m : CacheMap) (k k' : String) (v : Int) :
    mapHas (mapSet m k v) k' = (k = k' || mapHas m k') := by
  by_cases h : k = k'
  · subst h; simp [mapHas, mapGet_mapSet_self]
  · simp [mapHas, mapGet_mapSet_ne m k k' v h, h]

theorem mapHas_of_mapHas_mapSet_prior (m : CacheMap) (k k' : String) (v : Int)
    (h : mapHas m k') : mapHas (mapSet m k v) k' := by
  rw [mapHas_mapSet]
  simp [h]

-- Canonical-key lemmas

theorem string_data_inj (a b : String) (h : a.data = b.data) : a = b := by
  cases a; cases b; simp only at h; rw [h]

theorem createCacheKey_comm (a b : TaskId) : createCacheKey a b = createCacheKey b a := by
  unfold createCacheKey
  rcases lt_trichotomy a.data b.data with h | h | h
  · rw [if_pos h, if_neg (not_lt_of_lt h)]
  · rw [string_data_inj a b h]
  · rw [if_neg (not_lt_of_lt h), if_pos h]

theorem normalizeResult_normalizeResult (a b : TaskId) (r : Int) :
    normalizeResult a b (normalizeResult a b r) = r := by
  unfold normalizeResult
  by_cases h : a.data < b.data
  · simp [h]
  · by_cases h0 : r = 0 <;> simp [h, h0]

theorem normalizeResult_swap (a b : TaskId) (hne : a ≠ b) (r : Int) :
    normalizeResult b a r = invResult (normalizeResult a b r) := by
  unfold normalizeResult invResult
  rcases lt_trichotomy a.data b.data with h | h | h
  · rw [if_neg (not_lt_of_lt h), if_pos h]
  · exact absurd (string_data_inj a b h) hne
  · rw [if_pos h, if_neg (not_lt_of_lt h)]
    by_cases h0 : r = 0 <;> simp [h0]

theorem cGet_cSet_self (m : CacheMap) (a b : TaskId) (r : Int) :
    cGet (cSet m a b r) a b = some r := by
  unfold cGet cSet
  rw [mapGet_mapSet_self]
  simp [normalizeResult_normalizeResult]

theorem cGet_cSet_swap (m : CacheMap) (a b : TaskId) (hne : a ≠ b) (r : Int) :
    cGet (cSet m a b r) b a = some (invResult r) := by
  unfold cGet cSet
  rw [createCacheKey_comm b a, mapGet_mapSet_self]
  simp [normalizeResult_swap a b hne, normalizeResult_normalizeResult]

theorem cGet_cSet_ne (m : CacheMap) (a b x y : TaskId) (r : Int)
    (h : createCacheKey a b ≠ createCacheKey x y) :
    cGet (cSet m a b r) x y = cGet m x y := by
  unfold cGet cSet
  rw [mapGet_mapSet_ne _ _ _ _ h]

theorem cHas_comm (m : CacheMap) (a b : TaskId) : cHas m a b = cHas m b a := by
  unfold cHas
  rw [createCacheKey_comm]

theorem cHas_iff_isSome (m : CacheMap) (a b : TaskId) :
    cHas m a b = (cGet m a b).isSome := by
  unfold cHas cGet mapHas
  cases mapGet m (createCacheKey a b) <;> simp

/-- For any cache contents and distinct `a ≠ b`, `get(a,b)` and `get(b,a)`
read the same stored entry with opposite orientations. -/
theorem cGet_mutuallyInverse (m : CacheMap) (a b : TaskId) (hne : a ≠ b) :
    MutuallyInverse (cGet m a b) (cGet m b a) := by
  unfold cGet
  rw [createCacheKey_comm b a]
  cases mapGet m (createCacheKey a b) with
  | none => trivial
  | some v =>
    simp only [Option.map_some, MutuallyInverse]
    exact normalizeResult_swap a b hne v

-- Record/fold lemmas (createComparisonCache / fromRecord behaviour)

theorem mapGet_eq_none_iff (m : CacheMap) (k : String) :
    mapGet m k = none ↔ k ∉ m.map Prod.fst := by
  induction m with
  | nil => simp [mapGet]
  | cons kv rest ih =>
    obtain ⟨k', v'⟩ := kv
    by_cases h : k' = k
    · subst h; simp [mapGet]
    · simp [mapGet, h, ih, Ne.symm h]

theorem mapSet_eq_append (m : CacheMap) (k : String) (v : Int)
    (h : mapGet m k = none) : mapSet m k v = m ++ [(k, v)] := by
  induction m with
  | nil => simp [mapSet]
  | cons kv rest ih =>
    obtain ⟨k', v'⟩ := kv
    by_cases hk : k' = k
    · subst hk; simp [mapGet] at h
    · simp only [mapGet, if_neg hk] at h
      simp [mapSet, hk, ih h]

theorem map_fst_mapSet (m : CacheMap) (k : String) (v : Int) :
    (mapSet m k v).map Prod.fst
      = if mapHas m k then m.map Prod.fst else m.map Prod.fst ++ [k] := by
  induction m with
  | nil => simp [mapSet, mapHas, mapGet]
  | cons kv rest ih =>
    obtain ⟨k', v'⟩ := kv
    by_cases h : k' = k
    · subst h
      simp [mapSet, mapHas, mapGet]
    · have hhas : mapHas ((k', v') :: rest) k = mapHas rest k := by
        simp [mapHas, mapGet, h]
      simp only [mapSet, if_neg h, List.map_cons, ih, hhas]
      by_cases h' : mapHas rest k = true <;> simp [h']

theorem distinctKeys_mapSet (m : CacheMap) (k : String) (v : Int)
    (h : DistinctKeys m) : DistinctKeys (mapSet m k v) := by
  unfold DistinctKeys at h ⊢
  rw [map_fst_mapSet]
  by_cases hhas : mapHas m k = true
  · simpa [hhas] using h
  · have hnone : mapGet m k = none := by
      unfold mapHas at hhas
      cases hg : mapGet m k
      · rfl
      · rw [hg] at hhas; simp at hhas
    have hnotmem : k ∉ m.map Prod.fst := (mapGet_eq_none_iff m k).mp hnone
    rw [if_neg hhas, List.nodup_append]
    refine ⟨h, by simp, ?_⟩
    intro x hx hx'
    simp at hx'
    subst hx'
    exact hnotmem hx

theorem distinctKeys_foldl_mapSet (l : CacheMap) (acc : CacheMap)
    (h : DistinctKeys acc) :
    DistinctKeys (l.foldl (fun m kv => mapSet m kv.1 kv.2) acc) := by
  induction l generalizing acc with
  | nil => exact h
  | cons kv rest ih => exact ih _ (distinctKeys_mapSet _ _ _ h)

theorem distinctKeys_cacheFromRecord (r : CacheMap) :
    DistinctKeys (cacheFromRecord r) :=
  distinctKeys_foldl_mapSet r [] (by simp [DistinctKeys])

theorem foldl_mapSet_of_distinct (l : CacheMap) (acc : CacheMap)
    (h : DistinctKeys (acc ++ l)) :
    l.foldl (fun m kv => mapSet m kv.1 kv.2) acc = acc ++ l := by
  induction l generalizing acc with
  | nil => simp
  | cons kv rest ih =>
    obtain ⟨k, v⟩ := kv
    have hnone : mapGet acc k = none := by
      rw [mapGet_eq_none_iff]
      intro hmem
      unfold DistinctKeys at h
      rw [List.map_append, List.nodup_append] at h
      exact h.2.2 hmem (by simp)
    have hstep : mapSet acc k v = acc ++ [(k, v)] := mapSet_eq_append acc k v hnone
    have h' : DistinctKeys ((acc ++ [(k, v)]) ++ rest) := by
      simpa using h
    calc ((k, v) :: rest).foldl (fun m kv => mapSet m kv.1 kv.2) acc
        = rest.foldl (fun m kv => mapSet m kv.1 kv.2) (acc ++ [(k, v)]) := by
          simp [List.foldl_cons, hstep]
      _ = (acc ++ [(k, v)]) ++ rest := ih _ h'
      _ = acc ++ ((k, v) :: rest) := by simp

theorem cacheFromRecord_of_distinct (r : CacheMap) (h : DistinctKeys r) :
    cacheFromRecord r = r := by
  have := foldl_mapSet_of_distinct r [] (by simpa using h)
  simpa [cacheFromRecord] using this

theorem mapHas_eq_any (m : CacheMap) (k : String) :
    mapHas m k = m.any (fun kv => kv.1 == k) := by
  induction m with
  | nil => simp [mapHas, mapGet]
  | cons kv rest ih =>
    obtain ⟨k', v'⟩ := kv
    by_cases h : k' = k
    · subst h; simp [mapHas, mapGet]
    · simp only [mapHas, mapGet, if_neg h, List.any_cons] at *
      rw [ih]
      simp [h]

theorem mapHas_foldl_mapSet (l : CacheMap) (acc : CacheMap) (k : String) :
    mapHas (l.foldl (fun m kv => mapSet m kv.1 kv.2) acc) k
      = (mapHas acc k || l.any (fun kv => kv.1 == k)) := by
  induction l generalizing acc with
  | nil => simp
  | cons kv rest ih =>
    obtain ⟨k', v'⟩ := kv
    simp only [List.foldl_cons, List.any_cons]
    rw [ih, mapHas_mapSet]
    by_cases h : k' = k
    · subst h; simp
    · have hb : (k' == k) = false := by
        simp only [beq_eq_false_iff_ne, ne_eq]
        exact h
      simp [h, hb]

theorem mapHas_cacheFromRecord (r : CacheMap) (k : String) :
    mapHas (cacheFromRecord r) k = mapHas r k := by
  unfold cacheFromRecord
  rw [mapHas_foldl_mapSet]
  rw [show mapHas [] k = false from rfl, Bool.false_or]
  exact (mapHas_eq_any r k).symm

theorem cHas_cacheFromRecord (r : CacheMap) (a b : TaskId) :
    cHas (cacheFromRecord r) a b = cHas r a b := by
  unfold cHas
  exact mapHas_cacheFromRecord r (createCacheKey a b)

-- C3: cache symmetry

/-- C3 (amended): for distinct identifiers `a ≠ b` and any result `r`, after
`set(a,b,r)` the cache returns `r` for `get(a,b)` and the inverse of `r` for
`get(b,a)`; for any cache contents and distinct `a ≠ b`, `get(a,b)` and
`get(b,a)` are mutually inverse or both absent; and `has(a,b) = has(b,a)`
holds for all identifiers.  (The original claim's "for any a, b" invariant
fails when `a = b`: see the counterexample.) -/
theorem C3_cache_symmetry (m : CacheMap) (a b : TaskId) (r : Int) (hne : a ≠ b) :
    cGet (cSet m a b r) a b = some r ∧
    cGet (cSet m a b r) b a = some (invResult r) ∧
    MutuallyInverse (cGet m a b) (cGet m b a) ∧
    cHas m a b = cHas m b a :=
  ⟨cGet_cSet_self m a b r, cGet_cSet_swap m a b hne r,
    cGet_mutuallyInverse m a b hne, cHas_comm m a b⟩

/-- C3 witness: the amended statement at the concrete cache `[]`,
identifiers `"x" ≠ "y"`, result `1`. -/
theorem C3_cache_symmetry_witness :
    cGet (cSet [] "x" "y" 1) "x" "y" = some 1 ∧
    cGet (cSet [] "x" "y" 1) "y" "x" = some (invResult 1) ∧
    MutuallyInverse (cGet [] "x" "y") (cGet [] "y" "x") ∧
    cHas [] "x" "y" = cHas [] "y" "x" :=
  C3_cache_symmetry [] "x" "y" 1 (by decide)

/-- C3 counterexample: with `a = b = "x"`, after `set("x","x",1)` the two
queries `get(a,b)` and `get(b,a)` coincide and both return `1`, which is not
its own inverse — so the claim's "for any a, b, get(a,b) and get(b,a) are
mutually inverse or both absent" is false as stated. -/
theorem C3_cache_symmetry_counterexample :
    cGet (cSet [] "x" "x" 1) "x" "x" = some 1 ∧
    ¬ MutuallyInverse (cGet (cSet [] "x" "x" 1) "x" "x")
        (cGet (cSet [] "x" "x" 1) "x" "x") := by
  constructor
  · decide
  · decide

-- C4: idempotent serialization of the cache

/-- C4: for every comparison cache (JS `Map`s have pairwise-distinct keys,
expressed by `DistinctKeys`), `fromRecord(toRecord(cache))` reproduces the
cache exactly, hence behaviorally identically for every `get`/`has` query;
and `fromRecord` replaces the entire prior contents — its result does not
depend on the prior contents at all. -/
theorem C4_fromRecord_toRecord (m old old₁ old₂ rec : CacheMap)
    (h : DistinctKeys m) :
    cacheFromRecordOp old (cacheToRecord m) = m ∧
    (∀ a b, cGet (cacheFromRecordOp old (cacheToRecord m)) a b = cGet m a b) ∧
    (∀ a b, cHas (cacheFromRecordOp old (cacheToRecord m)) a b = cHas m a b) ∧
    cacheFromRecordOp old₁ rec = cacheFromRecordOp old₂ rec := by
  have hid : cacheFromRecordOp old (cacheToRecord m) = m := by
    unfold cacheFromRecordOp cacheToRecord
    have := foldl_mapSet_of_distinct m [] (by simpa using h)
    simpa using this
  exact ⟨hid, fun a b => by rw [hid], fun a b => by rw [hid], rfl⟩

/-- C4 witness: the statement at the concrete two-entry cache. -/
theorem C4_fromRecord_toRecord_witness :
    cacheFromRecordOp [] (cacheToRecord [("a|b", 1), ("c|d", -1)])
        = [("a|b", 1), ("c|d", -1)] ∧
    cacheFromRecordOp [("x|y", 0)] [("a|b", 1)]
        = cacheFromRecordOp [] [("a|b", 1)] :=
  ⟨(C4_fromRecord_toRecord [("a|b", 1), ("c|d", -1)] [] [("x|y", 0)] []
      [("a|b", 1)] (by decide)).1,
    (C4_fromRecord_toRecord [("a|b", 1), ("c|d", -1)] [] [("x|y", 0)] []
      [("a|b", 1)] (by decide)).2.2.2⟩

-- Transitive closure (applyTransitiveClosure from cache.ts)

/-- The directed "strictly greater than" graph built by `applyTransitiveClosure`
(`Map<TaskId, Set<TaskId>>` in the source), as a Boolean relation. -/
abbrev CGraph := TaskId → TaskId → Bool

/-- `graph.get(a)?.add(b)`. -/
def addEdge (g : CGraph) (a b : TaskId) : CGraph :=
  fun x y => if x = a ∧ y = b then true else g x y

/-- Body of the graph-building double loop of `applyTransitiveClosure`:
for fixed `a`, process `b`. -/
def initInner (c : CacheMap) (a : TaskId) (g : CGraph) (b : TaskId) : CGraph :=
  if a = b then g
  else if cGet c a b = some 1 then addEdge g a b
  else if cGet c a b = some (-1) then addEdge g b a
  else g

/-- The initial graph of `applyTransitiveClosure`: one edge `a → b` for every
cached `a > b` (`get(a,b) = 1`) and the reverse edge for `get(a,b) = -1`. -/
def initGraph (c : CacheMap) (taskIds : List TaskId) : CGraph :=
  taskIds.foldl (fun g a => taskIds.foldl (initInner c a) g) (fun _ _ => false)

/-- The body of the Floyd–Warshall-style triple loop: for fixed `k`, `i`,
process `j`.  Skips `i = j`, `i = k`, `j = k`; when `i ≻ k` and `k ≻ j` are
both present it adds the edge `i → j` and caches the inferred comparison
unless the pair is already cached. -/
def closureInner (k i : TaskId) (acc : CGraph × CacheMap) (j : TaskId) :
    CGraph × CacheMap :=
  if i = j ∨ i = k ∨ j = k then acc
  else if acc.1 i k && acc.1 k j then
    (addEdge acc.1 i j, if cHas acc.2 i j then acc.2 else cSet acc.2 i j 1)
  else acc

/-- One iteration of the outermost (`k`) loop of the closure pass. -/
def closureKStep (taskIds : List TaskId) (acc : CGraph × CacheMap) (k : TaskId) :
    CGraph × CacheMap :=
  taskIds.foldl (fun acc i => taskIds.foldl (closureInner k i) acc) acc

/-- The full triple loop of `applyTransitiveClosure`: graph and cache after
the Floyd–Warshall-style pass. -/
def closurePair (c : CacheMap) (taskIds : List TaskId) : CGraph × CacheMap :=
  taskIds.foldl (closureKStep taskIds) (initGraph c taskIds, c)

/-- `applyTransitiveClosure(cache, taskIds)` from `cache.ts`; returns the
mutated cache. -/
def applyTransitiveClosure (c : CacheMap) (taskIds : List TaskId) : CacheMap :=
  (closurePair c taskIds).2

-- Generic fold invariance

theorem foldl_preserves {α σ : Type _} (f : σ → α → σ) (P : σ → Prop)
    (h : ∀ s a, P s → P (f s a)) :
    ∀ (l : List α) (init : σ), P init → P (l.foldl f init) := by
  intro l
  induction l with
  | nil => intro init h0; exact h0
  | cons a rest ih => intro init h0; exact ih _ (h init a h0)

-- Cache-side invariants of the closure pass

/-- Every key present in `c` is still present in `c'` with the same value. -/
def CachePreserves (c c' : CacheMap) : Prop :=
  ∀ k, mapHas c k → (mapHas c' k ∧ mapGet c' k = mapGet c k)

/-- Every key of `c'` that is not in `c` stores `1` or `-1`. -/
def NewEntriesStrict (c c' : CacheMap) : Prop :=
  ∀ k, mapHas c k = false → mapHas c' k →
    (mapGet c' k = some 1 ∨ mapGet c' k = some (-1))

theorem normalizeResult_one (a b : TaskId) :
    normalizeResult a b 1 = 1 ∨ normalizeResult a b 1 = -1 := by
  unfold normalizeResult
  by_cases h : a.data < b.data <;> simp [h]

/-- The cache part of one `closureInner` step: preserves old entries, keeps
new entries strict, and only grows the key set. -/
theorem closureInner_cache (c : CacheMap) (k i : TaskId)
    (acc : CGraph × CacheMap) (j : TaskId)
    (h : CachePreserves c acc.2 ∧ NewEntriesStrict c acc.2) :
    CachePreserves c (closureInner k i acc j).2 ∧
      NewEntriesStrict c (closureInner k i acc j).2 := by
  unfold closureInner
  by_cases hskip : i = j ∨ i = k ∨ j = k
  · simpa [hskip] using h
  · rw [if_neg hskip]
    by_cases hcond : (acc.1 i k && acc.1 k j) = true
    · rw [if_pos hcond]
      by_cases hhas : cHas acc.2 i j = true
      · simpa [hhas] using h
      · simp only [hhas, Bool.false_eq_true, if_false]
        have hkey : mapHas acc.2 (createCacheKey i j) = false := by
          unfold cHas at hhas
          exact Bool.eq_false_iff.mpr (fun hc => hhas hc)
        constructor
        · intro key hk
          obtain ⟨h1, h2⟩ := h.1 key hk
          have hne : createCacheKey i j ≠ key := by
            intro he
            rw [he, h1] at hkey
            exact Bool.noConfusion hkey
          unfold cSet
          exact ⟨mapHas_of_mapHas_mapSet_prior _ _ _ _ h1,
            by rw [mapGet_mapSet_ne _ _ _ _ hne, h2]⟩
        · intro key hk0 hk1
          by_cases hne : createCacheKey i j = key
          · subst hne
            unfold cSet
            rw [mapGet_mapSet_self]
            rcases normalizeResult_one i j with h' | h' <;> simp [h']
          · unfold cSet at hk1 ⊢
            rw [mapGet_mapSet_ne _ _ _ _ hne]
            rw [mapHas_mapSet] at hk1
            simp only [hne, decide_eq_true_eq, false_or] at hk1
            have := h.2 key hk0 (by simpa using hk1)
            simpa using this
    · simpa [hcond] using h

/-- One `closureInner` step only adds graph edges. -/
theorem closureInner_graph_mono (k i : TaskId) (acc : CGraph × CacheMap)
    (j x y : TaskId) (h : acc.1 x y = true) :
    (closureInner k i acc j).1 x y = true := by
  unfold closureInner
  by_cases hskip : i = j ∨ i = k ∨ j = k
  · simpa [hskip] using h
  · rw [if_neg hskip]
    by_cases hcond : (acc.1 i k && acc.1 k j) = true
    · rw [if_pos hcond]
      unfold addEdge
      by_cases he : x = i ∧ y = j <;> simp [he, h]
    · simpa [hcond] using h

/-- One `closureInner` step only adds cache keys. -/
theorem closureInner_has_mono (k i : TaskId) (acc : CGraph × CacheMap)
    (j x y : TaskId) (h : cHas acc.2 x y = true) :
    cHas (closureInner k i acc j).2 x y = true := by
  unfold closureInner
  by_cases hskip : i = j ∨ i = k ∨ j = k
  · simpa [hskip] using h
  · rw [if_neg hskip]
    by_cases hcond : (acc.1 i k && acc.1 k j) = true
    · rw [if_pos hcond]
      by_cases hhas : cHas acc.2 i j = true
      · simpa [hhas] using h
      · simp only [hhas, Bool.false_eq_true, if_false]
        unfold cHas cSet
        unfold cHas at h
        exact mapHas_of_mapHas_mapSet_prior _ _ _ _ h
    · simpa [hcond] using h

/-- One `closureInner` step keeps the invariant "every graph edge is cached". -/
theorem closureInner_edgeHas (k i : TaskId) (acc : CGraph × CacheMap)
    (j : TaskId) (h : ∀ x y, acc.1 x y = true → cHas acc.2 x y = true) :
    ∀ x y, (closureInner k i acc j).1 x y = true →
      cHas (closureInner k i acc j).2 x y = true := by
  intro x y hxy
  unfold closureInner at hxy ⊢
  by_cases hskip : i = j ∨ i = k ∨ j = k
  · simp only [hskip, if_true] at hxy ⊢
    exact h x y hxy
  · rw [if_neg hskip] at hxy ⊢
    by_cases hcond : (acc.1 i k && acc.1 k j) = true
    · rw [if_pos hcond] at hxy ⊢
      simp only at hxy
      unfold addEdge at hxy
      by_cases he : x = i ∧ y = j
      · obtain ⟨hx, hy⟩ := he
        subst hx; subst hy
        by_cases hhas : cHas acc.2 x y = true
        · simp [hhas]
        · simp only [hhas, Bool.false_eq_true, if_false]
          unfold cHas cSet
          rw [mapHas_mapSet]
          simp
      · rw [if_neg he] at hxy
        have := h x y hxy
        by_cases hhas : cHas acc.2 i j = true
        · simpa [hhas] using this
        · simp only [hhas, Bool.false_eq_true, if_false]
          unfold cHas cSet
          unfold cHas at this
          exact mapHas_of_mapHas_mapSet_prior _ _ _ _ this
    · rw [if_neg hcond] at hxy ⊢
      exact h x y hxy

-- Paths in the comparison graph

/-- `PathVia g S x y`: there is a chain of `g`-edges from `x` to `y` all of
whose intermediate vertices lie in `S`. -/
inductive PathVia (g : CGraph) : List TaskId → TaskId → TaskId → Prop
  | base {S : List TaskId} {x y : TaskId} : g x y = true → PathVia g S x y
  | step {S : List TaskId} {x k y : TaskId} : k ∈ S →
      PathVia g S x k → PathVia g S k y → PathVia g S x y

theorem pathVia_nil {g : CGraph} {x y : TaskId} (h : PathVia g [] x y) :
    g x y = true := by
  cases h with
  | base h => exact h
  | step hk _ _ => cases hk

theorem pathVia_mono {g : CGraph} {S S' : List TaskId} {x y : TaskId}
    (hsub : ∀ m ∈ S, m ∈ S') (h : PathVia g S x y) : PathVia g S' x y := by
  induction h with
  | base h => exact PathVia.base h
  | step hk _ _ ihl ihr => exact PathVia.step (hsub _ hk) ihl ihr

theorem pathVia_split {g : CGraph} {S' S : List TaskId} {k : TaskId}
    {x y : TaskId} (h : PathVia g S' x y) (hmem : ∀ m ∈ S', m = k ∨ m ∈ S) :
    PathVia g S x y ∨ (PathVia g S x k ∧ PathVia g S k y) := by
  induction h with
  | base h => exact Or.inl (PathVia.base h)
  | @step x₀ m y₀ hm hl hr ihl ihr =>
    rcases hmem m hm with hmk | hmS
    · subst hmk
      have h₁ : PathVia g S x₀ m := by
        rcases ihl with h' | ⟨h', _⟩ <;> exact h'
      have h₂ : PathVia g S m y₀ := by
        rcases ihr with h' | ⟨_, h'⟩ <;> exact h'
      exact Or.inr ⟨h₁, h₂⟩
    · rcases ihl with hl' | ⟨hlk, hky⟩
      · rcases ihr with hr' | ⟨hmk', hky'⟩
        · exact Or.inl (PathVia.step hmS hl' hr')
        · exact Or.inr ⟨PathVia.step hmS hl' hmk', hky'⟩
      · rcases ihr with hr' | ⟨_, hky'⟩
        · exact Or.inr ⟨hlk, PathVia.step hmS hky hr'⟩
        · exact Or.inr ⟨hlk, hky'⟩

theorem transGen_pathVia {E : TaskId → TaskId → Prop} {g : CGraph}
    {ids : List TaskId} {x y : TaskId}
    (hE : ∀ a b, E a b → g a b = true ∧ a ∈ ids ∧ b ∈ ids)
    (h : Relation.TransGen E x y) : PathVia g ids x y := by
  induction h with
  | single h => exact PathVia.base (hE _ _ h).1
  | tail _ hbc ih =>
    exact PathVia.step (hE _ _ hbc).2.1 ih (PathVia.base (hE _ _ hbc).1)

-- Establishing properties at a particular fold element

theorem foldl_establishes {α σ : Type _} (f : σ → α → σ) (P : σ → Prop)
    (a₀ : α) (hmono : ∀ s a, P s → P (f s a)) (hest : ∀ s, P (f s a₀)) :
    ∀ (l : List α) (init : σ), a₀ ∈ l → P (l.foldl f init) := by
  intro l
  induction l with
  | nil => intro _ h; cases h
  | cons a rest ih =>
    intro init hmem
    rcases List.mem_cons.mp hmem with h | h
    · subst h
      exact foldl_preserves f P hmono rest _ (hest init)
    · exact ih _ h

-- Structure of the initial graph

theorem addEdge_self (g : CGraph) (a b : TaskId) : addEdge g a b a b = true := by
  simp [addEdge]

theorem addEdge_cases {g : CGraph} {a b x y : TaskId}
    (h : addEdge g a b x y = true) : (x = a ∧ y = b) ∨ g x y = true := by
  unfold addEdge at h
  by_cases he : x = a ∧ y = b
  · exact Or.inl he
  · rw [if_neg he] at h
    exact Or.inr h

theorem initInner_mono (c : CacheMap) (a : TaskId) (g : CGraph) (b x y : TaskId)
    (h : g x y = true) : initInner c a g b x y = true := by
  unfold initInner
  by_cases h1 : a = b
  · simpa [h1] using h
  · rw [if_neg h1]
    by_cases h2 : cGet c a b = some 1
    · rw [if_pos h2]
      unfold addEdge
      by_cases he : x = a ∧ y = b <;> simp [he, h]
    · rw [if_neg h2]
      by_cases h3 : cGet c a b = some (-1)
      · rw [if_pos h3]
        unfold addEdge
        by_cases he : x = b ∧ y = a <;> simp [he, h]
      · simpa [h3] using h

/-- Every edge of the initial graph corresponds to a cached entry. -/
theorem initGraph_edgeHas (c : CacheMap) (ids : List TaskId) :
    ∀ x y, initGraph c ids x y = true → cHas c x y = true := by
  unfold initGraph
  refine foldl_preserves _ (fun g : CGraph => ∀ x y, g x y = true → cHas c x y = true)
    ?_ ids _ (by intro x y h; exact absurd h (by simp))
  intro g a hg
  refine foldl_preserves _ (fun g : CGraph => ∀ x y, g x y = true → cHas c x y = true)
    ?_ ids g hg
  intro g' b hg' x y hxy
  unfold initInner at hxy
  by_cases h1 : a = b
  · rw [if_pos h1] at hxy
    exact hg' x y hxy
  · rw [if_neg h1] at hxy
    by_cases h2 : cGet c a b = some 1
    · rw [if_pos h2] at hxy
      rcases addEdge_cases hxy with ⟨hx, hy⟩ | h'
      · subst hx; subst hy
        rw [cHas_iff_isSome, h2]
        rfl
      · exact hg' x y h'
    · rw [if_neg h2] at hxy
      by_cases h3 : cGet c a b = some (-1)
      · rw [if_pos h3] at hxy
        rcases addEdge_cases hxy with ⟨hx, hy⟩ | h'
        · subst hx; subst hy
          rw [cHas_comm, cHas_iff_isSome, h3]
          rfl
        · exact hg' x y h'
      · rw [if_neg h3] at hxy
        exact hg' x y hxy

theorem foldl_preserves_mem {α σ : Type _} (f : σ → α → σ) (P : σ → Prop) :
    ∀ (l : List α), (∀ s a, a ∈ l → P s → P (f s a)) →
    ∀ init, P init → P (l.foldl f init) := by
  intro l
  induction l with
  | nil => intro _ init h0; exact h0
  | cons a rest ih =>
    intro h init h0
    exact ih (fun s b hb hs => h s b (List.mem_cons_of_mem _ hb) hs) _
      (h init a (List.mem_cons_self _ _) h0)

/-- Every edge of the initial graph has both endpoints in the identifier
list. -/
theorem initGraph_edge_mem (c : CacheMap) (ids : List TaskId) :
    ∀ x y, initGraph c ids x y = true → x ∈ ids ∧ y ∈ ids := by
  unfold initGraph
  refine foldl_preserves_mem _ (fun g : CGraph => ∀ x y, g x y = true → x ∈ ids ∧ y ∈ ids)
    ids ?_ _ (by intro x y h; exact absurd h (by simp))
  intro g a ha hg
  refine foldl_preserves_mem _ (fun g : CGraph => ∀ x y, g x y = true → x ∈ ids ∧ y ∈ ids)
    ids ?_ g hg
  intro g' b hb hg' x y hxy
  unfold initInner at hxy
  by_cases h1 : a = b
  · rw [if_pos h1] at hxy
    exact hg' x y hxy
  · rw [if_neg h1] at hxy
    by_cases h2 : cGet c a b = some 1
    · rw [if_pos h2] at hxy
      rcases addEdge_cases hxy with ⟨hx, hy⟩ | h'
      · subst hx; subst hy
        exact ⟨ha, hb⟩
      · exact hg' x y h'
    · rw [if_neg h2] at hxy
      by_cases h3 : cGet c a b = some (-1)
      · rw [if_pos h3] at hxy
        rcases addEdge_cases hxy with ⟨hx, hy⟩ | h'
        · subst hx; subst hy
          exact ⟨hb, ha⟩
        · exact hg' x y h'
      · rw [if_neg h3] at hxy
        exact hg' x y hxy

/-- The initial graph contains an edge for every cached strict comparison. -/
theorem initGraph_complete (c : CacheMap) (ids : List TaskId) (a b : TaskId)
    (ha : a ∈ ids) (hb : b ∈ ids) (hne : a ≠ b) (hget : cGet c a b = some 1) :
    initGraph c ids a b = true := by
  unfold initGraph
  refine foldl_establishes _ (fun g : CGraph => g a b = true) a
    (fun g a' hg => ?_) (fun g => ?_) ids _ ha
  · exact foldl_preserves _ (fun g => g a b = true)
      (fun g b' hg' => initInner_mono c a' g b' a b hg') ids g hg
  · refine foldl_establishes _ (fun g : CGraph => g a b = true) b
      (fun g' b' hg' => initInner_mono c a g' b' a b hg') (fun g' => ?_) ids g hb
    unfold initInner
    rw [if_neg hne, if_pos hget]
    exact addEdge_self _ a b

-- Completeness of the closure pass

theorem foldl_establishes_inv {α σ : Type _} (f : σ → α → σ) (P Q : σ → Prop)
    (a₀ : α) (hQ : ∀ s a, Q s → Q (f s a)) (hP : ∀ s a, P s → P (f s a))
    (hest : ∀ s, Q s → P (f s a₀)) :
    ∀ (l : List α) (init : σ), a₀ ∈ l → Q init → P (l.foldl f init) := by
  intro l
  induction l with
  | nil => intro _ h; cases h
  | cons a rest ih =>
    intro init hmem hq
    rcases List.mem_cons.mp hmem with h | h
    · subst h
      exact foldl_preserves f P hP rest _ (hest init hq)
    · exact ih _ h (hQ init a hq)

theorem closureKStep_graph_mono (ids : List TaskId) (k : TaskId)
    (acc : CGraph × CacheMap) (x y : TaskId) (h : acc.1 x y = true) :
    (closureKStep ids acc k).1 x y = true := by
  unfold closureKStep
  refine foldl_preserves _ (fun acc : CGraph × CacheMap => acc.1 x y = true)
    ?_ ids acc h
  intro s i hs
  exact foldl_preserves _ (fun acc : CGraph × CacheMap => acc.1 x y = true)
    (fun s' j hs' => closureInner_graph_mono k i s' j x y hs') ids s hs

theorem closureKStep_adds (ids : List TaskId) (k : TaskId)
    (acc : CGraph × CacheMap) (i j : TaskId) (hi : i ∈ ids) (hj : j ∈ ids)
    (hij : i ≠ j) (hik : i ≠ k) (hjk : j ≠ k)
    (h1 : acc.1 i k = true) (h2 : acc.1 k j = true) :
    (closureKStep ids acc k).1 i j = true := by
  unfold closureKStep
  refine foldl_establishes_inv _
    (fun acc : CGraph × CacheMap => acc.1 i j = true)
    (fun acc : CGraph × CacheMap => acc.1 i k = true ∧ acc.1 k j = true)
    i ?hQ ?hP ?hest ids acc hi ⟨h1, h2⟩
  case hQ =>
    intro s i' hs
    constructor
    · exact foldl_preserves _ (fun acc : CGraph × CacheMap => acc.1 i k = true)
        (fun s' j' hs' => closureInner_graph_mono k i' s' j' i k hs') ids s hs.1
    · exact foldl_preserves _ (fun acc : CGraph × CacheMap => acc.1 k j = true)
        (fun s' j' hs' => closureInner_graph_mono k i' s' j' k j hs') ids s hs.2
  case hP =>
    intro s i' hs
    exact foldl_preserves _ (fun acc : CGraph × CacheMap => acc.1 i j = true)
      (fun s' j' hs' => closureInner_graph_mono k i' s' j' i j hs') ids s hs
  case hest =>
    intro s hq
    refine foldl_establishes_inv _
      (fun acc : CGraph × CacheMap => acc.1 i j = true)
      (fun acc : CGraph × CacheMap => acc.1 i k = true ∧ acc.1 k j = true)
      j ?_ ?_ ?_ ids s hj hq
    · intro s' j' hs'
      exact ⟨closureInner_graph_mono k i s' j' i k hs'.1,
        closureInner_graph_mono k i s' j' k j hs'.2⟩
    · intro s' j' hs'
      exact closureInner_graph_mono k i s' j' i j hs'
    · intro s' hq'
      unfold closureInner
      have hskip : ¬(i = j ∨ i = k ∨ j = k) := by
        push_neg
        exact ⟨hij, hik, hjk⟩
      rw [if_neg hskip]
      have hcond : (s'.1 i k && s'.1 k j) = true := by
        rw [hq'.1, hq'.2]; rfl
      rw [if_pos hcond]
      exact addEdge_self _ i j

/-- Endpoints of any path over the initial graph lie in the identifier
list. -/
theorem pathVia_mem {c : CacheMap} {ids S : List TaskId} {x y : TaskId}
    (h : PathVia (initGraph c ids) S x y) : x ∈ ids ∧ y ∈ ids := by
  induction h with
  | base h => exact initGraph_edge_mem c ids _ _ h
  | step _ _ _ ihl ihr => exact ⟨ihl.1, ihr.2⟩

/-- The graph invariant of the Floyd–Warshall pass: after processing the
prefix `S` of the `k`-loop, the graph contains an edge for every path whose
intermediate vertices lie in `S`. -/
def GInv (c : CacheMap) (ids S : List TaskId) (g : CGraph) : Prop :=
  ∀ x y, x ≠ y → PathVia (initGraph c ids) S x y → g x y = true

theorem closureKStep_GInv (c : CacheMap) (ids S : List TaskId) (k : TaskId)
    (acc : CGraph × CacheMap) (hInv : GInv c ids S acc.1) :
    GInv c ids (S ++ [k]) (closureKStep ids acc k).1 := by
  intro x y hxy hpath
  have hsplit := pathVia_split hpath
    (fun m hm => by
      rcases List.mem_append.mp hm with h | h
      · exact Or.inr h
      · simp at h
        exact Or.inl h)
  rcases hsplit with hS | ⟨hxk, hky⟩
  · exact closureKStep_graph_mono ids k acc x y (hInv x y hxy hS)
  · by_cases hxkeq : x = k
    · have hky' : PathVia (initGraph c ids) S x y := by rw [hxkeq]; exact hky
      exact closureKStep_graph_mono ids k acc x y (hInv x y hxy hky')
    · by_cases hykeq : y = k
      · have hxk' : PathVia (initGraph c ids) S x y := by rw [hykeq]; exact hxk
        exact closureKStep_graph_mono ids k acc x y (hInv x y hxy hxk')
      · have h1 := hInv x k hxkeq hxk
        have h2 := hInv k y (fun h => hykeq h.symm) hky
        exact closureKStep_adds ids k acc x y (pathVia_mem hxk).1
          (pathVia_mem hky).2 hxy hxkeq hykeq h1 h2

theorem closure_fold_GInv (c : CacheMap) (ids : List TaskId) :
    ∀ (ks S : List TaskId) (acc : CGraph × CacheMap), GInv c ids S acc.1 →
      GInv c ids (S ++ ks) ((ks.foldl (closureKStep ids) acc).1) := by
  intro ks
  induction ks with
  | nil => intro S acc h; simpa using h
  | cons k ks' ih =>
    intro S acc h
    have h2 := ih (S ++ [k]) _ (closureKStep_GInv c ids S k acc h)
    rw [List.append_assoc] at h2
    simpa using h2

theorem closurePair_complete (c : CacheMap) (ids : List TaskId) (x y : TaskId)
    (hxy : x ≠ y) (hpath : PathVia (initGraph c ids) ids x y) :
    (closurePair c ids).1 x y = true := by
  have hbase : GInv c ids [] (initGraph c ids, c).1 :=
    fun x y _ hp => pathVia_nil hp
  have := closure_fold_GInv c ids ids [] (initGraph c ids, c) hbase
  exact this x y hxy (by simpa using hpath)

/-- The cache-side invariants hold of the final closure state. -/
theorem closurePair_invariants (c : CacheMap) (ids : List TaskId) :
    CachePreserves c (closurePair c ids).2 ∧
    NewEntriesStrict c (closurePair c ids).2 ∧
    (∀ x y, (closurePair c ids).1 x y = true →
      cHas (closurePair c ids).2 x y = true) := by
  unfold closurePair
  refine foldl_preserves _ (fun acc : CGraph × CacheMap =>
    CachePreserves c acc.2 ∧ NewEntriesStrict c acc.2 ∧
    ∀ x y, acc.1 x y = true → cHas acc.2 x y = true) ?step ids _ ?base
  case base =>
    refine ⟨fun k hk => ⟨hk, rfl⟩, fun k h1 h2 => ?_, initGraph_edgeHas c ids⟩
    rw [h1] at h2
    exact Bool.noConfusion h2
  case step =>
    intro acc k h
    unfold closureKStep
    refine foldl_preserves _ (fun acc : CGraph × CacheMap =>
      CachePreserves c acc.2 ∧ NewEntriesStrict c acc.2 ∧
      ∀ x y, acc.1 x y = true → cHas acc.2 x y = true) ?_ ids acc h
    intro acc' i h'
    refine foldl_preserves _ (fun acc : CGraph × CacheMap =>
      CachePreserves c acc.2 ∧ NewEntriesStrict c acc.2 ∧
      ∀ x y, acc.1 x y = true → cHas acc.2 x y = true) ?_ ids acc' h'
    intro acc'' j h''
    obtain ⟨hc, hn⟩ := closureInner_cache c k i acc'' j ⟨h''.1, h''.2.1⟩
    exact ⟨hc, hn, closureInner_edgeHas k i acc'' j h''.2.2⟩

/-- `a ≻ b` directly in the cache, over the identifier set handed to the
closure pass: both identifiers occur in the list, they are distinct, and the
cached answer for `(a, b)` is `greater`. -/
def CachedGreater (c : CacheMap) (ids : List TaskId) (a b : TaskId) : Prop :=
  a ∈ ids ∧ b ∈ ids ∧ a ≠ b ∧ cGet c a b = some 1

theorem normalizeResult_strict (a b : TaskId) (v : Int)
    (h : v = 1 ∨ v = -1) :
    normalizeResult a b v = 1 ∨ normalizeResult a b v = -1 := by
  unfold normalizeResult
  rcases h with h | h <;> subst h <;> by_cases hlt : a.data < b.data <;>
    simp [hlt]

/-- C8: `applyTransitiveClosure` over a full identifier set (1) caches an
entry for every pair related by a chain of cached strict greater-than
results, (2) never overwrites an already-present cache entry — a direct
answer takes precedence over an inference — and (3) every entry it adds is a
strict `greater`/`less` result; in particular, with exactly `A>B` and `B>C`
cached, closure over `{A,B,C}` makes `get(A,C)` return `greater` although it
was never explicitly set. -/
theorem C8_applyTransitiveClosure (c : CacheMap) (ids : List TaskId)
    (x y : TaskId) (hxy : x ≠ y)
    (hchain : Relation.TransGen (CachedGreater c ids) x y) :
    cHas (applyTransitiveClosure c ids) x y = true ∧
    (∀ a b, cHas c a b = true →
      cGet (applyTransitiveClosure c ids) a b = cGet c a b) ∧
    (∀ a b, cHas c a b = false → cHas (applyTransitiveClosure c ids) a b = true →
      (cGet (applyTransitiveClosure c ids) a b = some 1 ∨
        cGet (applyTransitiveClosure c ids) a b = some (-1))) ∧
    (cGet (applyTransitiveClosure (cSet (cSet [] "A" "B" 1) "B" "C" 1)
        ["A", "B", "C"]) "A" "C" = some 1 ∧
      cHas (cSet (cSet [] "A" "B" 1) "B" "C" 1) "A" "C" = false) := by
  obtain ⟨hpres, hnew, hedge⟩ := closurePair_invariants c ids
  refine ⟨?_, ?_, ?_, by decide, by decide⟩
  · have hpath : PathVia (initGraph c ids) ids x y := by
      refine transGen_pathVia ?_ hchain
      intro a b hE
      exact ⟨initGraph_complete c ids a b hE.1 hE.2.1 hE.2.2.1 hE.2.2.2,
        hE.1, hE.2.1⟩
    exact hedge x y (closurePair_complete c ids x y hxy hpath)
  · intro a b hab
    unfold cHas at hab
    obtain ⟨_, hsame⟩ := hpres (createCacheKey a b) hab
    unfold applyTransitiveClosure cGet
    rw [hsame]
  · intro a b hab0 hab1
    unfold cHas at hab0 hab1
    unfold applyTransitiveClosure at hab1 ⊢
    have := hnew (createCacheKey a b) hab0 hab1
    unfold cGet
    rcases this with h | h <;>
      [exact normalizeResult_strict a b _ (Or.inl rfl) |>.imp
        (fun h' => by rw [h]; simpa using h')
        (fun h' => by rw [h]; simpa using h');
       exact normalizeResult_strict a b _ (Or.inr rfl) |>.imp
        (fun h' => by rw [h]; simpa using h')
        (fun h' => by rw [h]; simpa using h')]

/-- C8 witness: the theorem applied to the concrete scenario cache
`{A>B, B>C}` over `{A, B, C}` with the chain `A ≻ B ≻ C`. -/
theorem C8_applyTransitiveClosure_witness :
    cHas (applyTransitiveClosure (cSet (cSet [] "A" "B" 1) "B" "C" 1)
      ["A", "B", "C"]) "A" "C" = true ∧
    cGet (applyTransitiveClosure (cSet (cSet [] "A" "B" 1) "B" "C" 1)
      ["A", "B", "C"]) "A" "C" = some 1 := by
  have hAB : CachedGreater (cSet (cSet [] "A" "B" 1) "B" "C" 1)
      ["A", "B", "C"] "A" "B" :=
    ⟨by decide, by decide, by decide, by decide⟩
  have hBC : CachedGreater (cSet (cSet [] "A" "B" 1) "B" "C" 1)
      ["A", "B", "C"] "B" "C" :=
    ⟨by decide, by decide, by decide, by decide⟩
  have h := C8_applyTransitiveClosure (cSet (cSet [] "A" "B" 1) "B" "C" 1)
    ["A", "B", "C"] "A" "C" (by decide)
    (Relation.TransGen.tail (Relation.TransGen.single hAB) hBC)
  exact ⟨h.1, h.2.2.2.1⟩

-- Merge engine (mergeEngine.ts)

/-- `MergeFrame` from `domain/types.ts`: one in-progress binary merge. -/
structure MergeFrame where
  left : List TaskId
  right : List TaskId
  leftIdx : Nat
  rightIdx : Nat
  merged : List TaskId
deriving DecidableEq, Repr

/-- `MergeSortState` from `domain/types.ts`.  The JS array `stack` is pushed
and popped at its end; it is modelled with the stack top at the head of the
list. -/
structure MergeSortState where
  runs : List (List TaskId)
  stack : List MergeFrame
  result : List TaskId
deriving DecidableEq, Repr

/-- `SortingState` from `domain/types.ts`. -/
structure SortingState where
  algo : String
  comparisonsAsked : Nat
  comparisonsTotal : Nat
  cache : CacheMap
  internal : Option MergeSortState
deriving DecidableEq, Repr

/-- `ComparisonPair` from `sortingEngine/types.ts`. -/
structure ComparisonPair where
  a : TaskId
  b : TaskId
deriving DecidableEq, Repr

/-- `SortingProgress` from `sortingEngine/types.ts`. -/
structure SortingProgress where
  current : Nat
  total : Nat
  percentage : Nat
deriving DecidableEq, Repr

/-- Fuelled ceiling base-2 logarithm: `ceilLog2F f m = ⌈log₂ m⌉` whenever
`m ≤ 2 ^ f` (structural in the fuel, so it computes by reduction). -/
def ceilLog2F : Nat → Nat → Nat
  | 0, _ => 0
  | f + 1, m => if m ≤ 1 then 0 else ceilLog2F f ((m + 1) / 2) + 1

/-- `estimateComparisons(n)` from `mergeEngine.ts`: `0` for `n ≤ 1`, else
`Math.ceil(n * Math.log2(n))`, i.e. `⌈n·log₂ n⌉ = ⌈log₂ (n^n)⌉`. -/
def estimateComparisons (n : Nat) : Nat :=
  if n ≤ 1 then 0 else ceilLog2F (n * n) (n ^ n)

/-- `createSession(taskIds, existingCache?)` from `mergeEngine.ts`. -/
def createSession (taskIds : List TaskId) (existingCache : Option CacheMap) :
    SortingState :=
  let cache := cacheFromRecord (existingCache.getD [])
  let runs := taskIds.map (fun id => [id])
  { algo := "merge"
    comparisonsAsked := 0
    comparisonsTotal := estimateComparisons taskIds.length
    cache := cacheToRecord cache
    internal := some { runs := runs, stack := [], result := [] } }

/-- `advanceFrame(frame, result)` from `mergeEngine.ts`: result `1` or `0`
takes the left run's current element, anything else the right's.  The JS
`frame.left[frame.leftIdx++]` is in range at every call site that can occur
(out of range, JS would push `undefined`; here the push is empty). -/
def advanceFrame (frame : MergeFrame) (result : Int) : MergeFrame :=
  if result = 1 ∨ result = 0 then
    { frame with
        merged := frame.merged ++ (frame.left.drop frame.leftIdx).take 1
        leftIdx := frame.leftIdx + 1 }
  else
    { frame with
        merged := frame.merged ++ (frame.right.drop frame.rightIdx).take 1
        rightIdx := frame.rightIdx + 1 }

/-- The frame-completion step of `requestNextPair`: pop the finished frame,
drain the unexhausted side into `merged`, and push the merged run at the back
of the run queue. -/
def completeFrame (s : SortingState) (st : MergeSortState) (fr : MergeFrame)
    (rest : List MergeFrame) : SortingState :=
  { s with internal := some { st with
      stack := rest
      runs := st.runs ++
        [fr.merged ++ fr.left.drop fr.leftIdx ++ fr.right.drop fr.rightIdx] } }

/-- The cache-hit step of `requestNextPair`: consume the cached answer for
the current pair and advance the frame. -/
def hitAdvance (s : SortingState) (st : MergeSortState) (fr : MergeFrame)
    (rest : List MergeFrame) (a b : TaskId) : SortingState :=
  { s with internal := some { st with
      stack :=
        advanceFrame fr ((cGet (cacheFromRecord s.cache) a b).getD 0) :: rest } }

/-- The completion step of `requestNextPair` when a single run remains. -/
def setResult (s : SortingState) (st : MergeSortState) (r : List TaskId) :
    SortingState :=
  { s with internal := some { st with result := r } }

/-- The new-merge step of `requestNextPair`: shift the first two runs off the
queue and push a fresh frame. -/
def startMerge (s : SortingState) (st : MergeSortState) (l r : List TaskId)
    (rest : List (List TaskId)) : SortingState :=
  { s with internal := some { st with
      runs := rest
      stack := [{ left := l, right := r, leftIdx := 0, rightIdx := 0,
                  merged := [] }] } }

/-- `requestNextPair(state)` from `mergeEngine.ts`, with explicit fuel for
the source's self-recursion.  Returns the (mutated) state together with the
next pair, or `none` inside the option when sorting is done; the outer
`none` means the fuel ran out (never happens for enough fuel). -/
def requestNextPairF : Nat → SortingState →
    Option (SortingState × Option ComparisonPair)
  | 0, _ => none
  | fuel + 1, s =>
    match s.internal with
    | none => some (s, none)
    | some st =>
      match st.stack with
      | fr :: rest =>
        if fr.left.length ≤ fr.leftIdx ∨ fr.right.length ≤ fr.rightIdx then
          requestNextPairF fuel (completeFrame s st fr rest)
        else if cHas (cacheFromRecord s.cache) (fr.left.getD fr.leftIdx "")
            (fr.right.getD fr.rightIdx "") then
          requestNextPairF fuel (hitAdvance s st fr rest
            (fr.left.getD fr.leftIdx "") (fr.right.getD fr.rightIdx ""))
        else some (s, some { a := fr.left.getD fr.leftIdx "",
                             b := fr.right.getD fr.rightIdx "" })
      | [] =>
        match st.runs with
        | [] => some (s, none)
        | [r] => some (setResult s st r, none)
        | l :: r :: rest => requestNextPairF fuel (startMerge s st l r rest)

/-- `commitComparison(state, a, b, result)` from `mergeEngine.ts`.  With
`internal` null the source throws a `TypeError` at `internal.stack.length`
(modelled as `none`); otherwise it caches the result, advances the top frame
when one exists, and returns the updated state. -/
def commitComparison (s : SortingState) (a b : TaskId) (result : Int) :
    Option SortingState :=
  match s.internal with
  | none => none
  | some st =>
    some { s with
      comparisonsAsked := s.comparisonsAsked + 1
      cache := cacheToRecord (cSet (cacheFromRecord s.cache) a b result)
      internal := some { st with
        stack :=
          match st.stack with
          | [] => []
          | fr :: rest => advanceFrame fr result :: rest } }

/-- `isComplete(state)` from `mergeEngine.ts`. -/
def isComplete (s : SortingState) : Bool :=
  match s.internal with
  | none => true
  | some st => st.runs.length = 1 && st.stack.length = 0

/-- `finalize(state)` from `mergeEngine.ts`. -/
def finalize (s : SortingState) : List TaskId :=
  match s.internal with
  | none => []
  | some st =>
    match st.runs with
    | [r] => r
    | _ => st.result

/-- `getProgress(state)` from `mergeEngine.ts` (integer percentage with
JS `Math.round`, clamped at 100). -/
def getProgress (s : SortingState) : SortingProgress :=
  let current := s.comparisonsAsked
  let total := s.comparisonsTotal
  let percentage :=
    if 0 < total then (current * 100 + total / 2) / total else 0
  { current := current, total := total, percentage := min 100 percentage }

/-- `resetWithCache(state, taskIds)` from `mergeEngine.ts`. -/
def resetWithCache (s : SortingState) (taskIds : List TaskId) : SortingState :=
  createSession taskIds (some s.cache)

/-- `validateState(state)` from `mergeEngine.ts` (the structural checks that
are expressible in the typed model: a present `internal` with array fields). -/
def validateState (s : SortingState) : Bool :=
  match s.internal with
  | none => false
  | some _ => true

/-- The driver loop: repeatedly request the next pair and answer it with
`ans a b`, until `requestNextPair` signals done.  Returns the final state and
the list of pairs that were shown to the human. -/
def runF (ans : TaskId → TaskId → Int) : Nat → SortingState →
    Option (SortingState × List ComparisonPair)
  | 0, _ => none
  | fuel + 1, s =>
    match requestNextPairF (fuel + 1) s with
    | none => none
    | some (s', none) => some (s', [])
    | some (s', some p) =>
      match commitComparison s' p.a p.b (ans p.a p.b) with
      | none => none
      | some s'' =>
        match runF ans fuel s'' with
        | none => none
        | some (sf, ps) => some (sf, p :: ps)

-- Identifier bookkeeping

/-- The identifiers held by a merge frame: unconsumed left and right
suffixes plus the accumulated output. -/
def frameList (fr : MergeFrame) : List TaskId :=
  fr.left.drop fr.leftIdx ++ fr.right.drop fr.rightIdx ++ fr.merged

/-- All identifiers distributed across the run queue and the active merge
frames (the stored `result` is deliberately not counted; see C10). -/
def stList (st : MergeSortState) : List TaskId :=
  st.runs.flatten ++ (st.stack.map frameList).flatten

/-- Session-level view of `stList`. -/
def sessionIds (s : SortingState) : List TaskId :=
  match s.internal with
  | none => []
  | some st => stList st

/-- All identifiers including the stored result (the reading of claim C10). -/
def sessionIdsWithResult (s : SortingState) : List TaskId :=
  match s.internal with
  | none => []
  | some st => stList st ++ st.result

/-- The stored result is empty until completion; at completion it equals the
single remaining run. -/
def SResultOk (s : SortingState) : Prop :=
  ∀ st, s.internal = some st →
    (st.result = [] ∨ (st.stack = [] ∧ st.runs = [st.result]))

/-- The state is awaiting the answer for `pr`: `pr` is the current pair of
the top merge frame, both cursors in range, and the pair is not cached. -/
def PendingPair (s : SortingState) (pr : ComparisonPair) : Prop :=
  ∃ st fr rest, s.internal = some st ∧ st.stack = fr :: rest ∧
    fr.leftIdx < fr.left.length ∧ fr.rightIdx < fr.right.length ∧
    pr.a = fr.left.getD fr.leftIdx "" ∧ pr.b = fr.right.getD fr.rightIdx "" ∧
    cHas (cacheFromRecord s.cache) pr.a pr.b = false

/-- The state in which `requestNextPair` reports "done": either no internal
state, or no active frame and an empty queue or a single run stored as the
result. -/
def DoneState (s : SortingState) : Prop :=
  s.internal = none ∨ ∃ st, s.internal = some st ∧ st.stack = [] ∧
    (st.runs = [] ∨ ∃ r, st.runs = [r] ∧ st.result = r)

/-- What one internal step of `requestNextPair` preserves. -/
structure StepOut (s s₁ : SortingState) : Prop where
  cache_eq : s₁.cache = s.cache
  asked_eq : s₁.comparisonsAsked = s.comparisonsAsked
  algo_eq : s₁.algo = s.algo
  total_eq : s₁.comparisonsTotal = s.comparisonsTotal
  ids_perm : List.Perm (sessionIds s₁) (sessionIds s)
  int_some : s₁.internal.isSome = s.internal.isSome
  rok : SResultOk s → SResultOk s₁

/-- What `requestNextPair` guarantees about its result. -/
structure ReqOut (s s' : SortingState) (p : Option ComparisonPair) : Prop where
  cache_eq : s'.cache = s.cache
  asked_eq : s'.comparisonsAsked = s.comparisonsAsked
  algo_eq : s'.algo = s.algo
  total_eq : s'.comparisonsTotal = s.comparisonsTotal
  ids_perm : List.Perm (sessionIds s') (sessionIds s)
  int_some : s'.internal.isSome = s.internal.isSome
  rok : SResultOk s → SResultOk s'
  pair_pending : ∀ pr, p = some pr → PendingPair s' pr
  done_done : p = none → DoneState s'

theorem stepOut_comp {s s₁ s' : SortingState} {p : Option ComparisonPair}
    (h1 : StepOut s s₁) (h2 : ReqOut s₁ s' p) : ReqOut s s' p where
  cache_eq := h2.cache_eq.trans h1.cache_eq
  asked_eq := h2.asked_eq.trans h1.asked_eq
  algo_eq := h2.algo_eq.trans h1.algo_eq
  total_eq := h2.total_eq.trans h1.total_eq
  ids_perm := h2.ids_perm.trans h1.ids_perm
  int_some := h2.int_some.trans h1.int_some
  rok := fun h => h2.rok (h1.rok h)
  pair_pending := h2.pair_pending
  done_done := h2.done_done

-- Per-step facts

theorem frameList_advanceFrame (fr : MergeFrame) (r : Int) :
    frameList (advanceFrame fr r) ~ frameList fr := by
  unfold advanceFrame frameList
  by_cases hr : r = 1 ∨ r = 0
  · rw [if_pos hr]
    simp only
    have hsplit : fr.left.drop fr.leftIdx
        = (fr.left.drop fr.leftIdx).take 1 ++ fr.left.drop (fr.leftIdx + 1) := by
      rw [← List.drop_drop]
      exact (List.take_append_drop 1 (fr.left.drop fr.leftIdx)).symm
    calc fr.left.drop (fr.leftIdx + 1) ++ fr.right.drop fr.rightIdx ++
          (fr.merged ++ (fr.left.drop fr.leftIdx).take 1)
        ~ (fr.left.drop fr.leftIdx).take 1 ++
            (fr.left.drop (fr.leftIdx + 1) ++ fr.right.drop fr.rightIdx ++
              fr.merged) := by
          have : (fr.left.drop (fr.leftIdx + 1) ++ fr.right.drop fr.rightIdx ++
                fr.merged) ++ (fr.left.drop fr.leftIdx).take 1
              ~ (fr.left.drop fr.leftIdx).take 1 ++
                (fr.left.drop (fr.leftIdx + 1) ++ fr.right.drop fr.rightIdx ++
                  fr.merged) := List.perm_append_comm
          calc fr.left.drop (fr.leftIdx + 1) ++ fr.right.drop fr.rightIdx ++
                (fr.merged ++ (fr.left.drop fr.leftIdx).take 1)
              = (fr.left.drop (fr.leftIdx + 1) ++ fr.right.drop fr.rightIdx ++
                  fr.merged) ++ (fr.left.drop fr.leftIdx).take 1 := by
                simp [List.append_assoc]
            _ ~ (fr.left.drop fr.leftIdx).take 1 ++
                  (fr.left.drop (fr.leftIdx + 1) ++ fr.right.drop fr.rightIdx ++
                    fr.merged) := this
      _ = fr.left.drop fr.leftIdx ++ fr.right.drop fr.rightIdx ++ fr.merged := by
          conv_rhs => rw [hsplit]
          rw [List.append_assoc, List.append_assoc, List.append_assoc]
  · rw [if_neg hr]
    simp only
    have hsplit : fr.right.drop fr.rightIdx
        = (fr.right.drop fr.rightIdx).take 1 ++ fr.right.drop (fr.rightIdx + 1) := by
      rw [← List.drop_drop]
      exact (List.take_append_drop 1 (fr.right.drop fr.rightIdx)).symm
    calc fr.left.drop fr.leftIdx ++ fr.right.drop (fr.rightIdx + 1) ++
          (fr.merged ++ (fr.right.drop fr.rightIdx).take 1)
        = (fr.left.drop fr.leftIdx ++ fr.right.drop (fr.rightIdx + 1) ++
            fr.merged) ++ (fr.right.drop fr.rightIdx).take 1 := by
          simp [List.append_assoc]
      _ ~ (fr.right.drop fr.rightIdx).take 1 ++
            (fr.left.drop fr.leftIdx ++ fr.right.drop (fr.rightIdx + 1) ++
              fr.merged) := List.perm_append_comm
      _ ~ fr.left.drop fr.leftIdx ++
            ((fr.right.drop fr.rightIdx).take 1 ++ fr.right.drop (fr.rightIdx + 1)) ++
            fr.merged := by
          have : (fr.right.drop fr.rightIdx).take 1 ++
              (fr.left.drop fr.leftIdx ++ fr.right.drop (fr.rightIdx + 1) ++
                fr.merged)
              = ((fr.right.drop fr.rightIdx).take 1 ++ fr.left.drop fr.leftIdx ++
                  fr.right.drop (fr.rightIdx + 1)) ++ fr.merged := by
            simp [List.append_assoc]
          rw [this]
          refine List.Perm.append ?_ (List.Perm.refl _)
          have : (fr.right.drop fr.rightIdx).take 1 ++ fr.left.drop fr.leftIdx ++
              fr.right.drop (fr.rightIdx + 1)
              = (fr.right.drop fr.rightIdx).take 1 ++
                (fr.left.drop fr.leftIdx ++ fr.right.drop (fr.rightIdx + 1)) := by
            simp [List.append_assoc]
          rw [this]
          have hcomm : (fr.right.drop fr.rightIdx).take 1 ++ fr.left.drop fr.leftIdx
              ~ fr.left.drop fr.leftIdx ++ (fr.right.drop fr.rightIdx).take 1 :=
            List.perm_append_comm
          calc (fr.right.drop fr.rightIdx).take 1 ++
                (fr.left.drop fr.leftIdx ++ fr.right.drop (fr.rightIdx + 1))
              = ((fr.right.drop fr.rightIdx).take 1 ++ fr.left.drop fr.leftIdx) ++
                  fr.right.drop (fr.rightIdx + 1) := by simp [List.append_assoc]
            _ ~ (fr.left.drop fr.leftIdx ++ (fr.right.drop fr.rightIdx).take 1) ++
                  fr.right.drop (fr.rightIdx + 1) :=
                List.Perm.append hcomm (List.Perm.refl _)
            _ = fr.left.drop fr.leftIdx ++
                  ((fr.right.drop fr.rightIdx).take 1 ++
                    fr.right.drop (fr.rightIdx + 1)) := by simp [List.append_assoc]
      _ = fr.left.drop fr.leftIdx ++ fr.right.drop fr.rightIdx ++ fr.merged := by
          rw [← hsplit]

theorem sessionIds_some (s : SortingState) (st : MergeSortState)
    (h : s.internal = some st) : sessionIds s = stList st := by
  unfold sessionIds
  rw [h]

theorem stepOut_completeFrame (s : SortingState) (st : MergeSortState)
    (fr : MergeFrame) (rest : List MergeFrame) (hint : s.internal = some st)
    (hstack : st.stack = fr :: rest) : StepOut s (completeFrame s st fr rest) := by
  have hint' : (completeFrame s st fr rest).internal = some { st with
      stack := rest
      runs := st.runs ++
        [fr.merged ++ fr.left.drop fr.leftIdx ++ fr.right.drop fr.rightIdx] } := rfl
  refine ⟨rfl, rfl, rfl, rfl, ?_, by simp [hint, hint'], ?_⟩
  · rw [sessionIds_some _ _ hint, sessionIds_some _ _ hint']
    unfold stList
    simp only [hstack, List.map_cons, List.flatten_cons, List.flatten_append,
      List.flatten_cons, List.flatten_nil, List.append_nil]
    rw [List.append_assoc]
    refine List.Perm.append_left _ ?_
    refine List.Perm.append ?_ (List.Perm.refl _)
    unfold frameList
    calc fr.merged ++ fr.left.drop fr.leftIdx ++ fr.right.drop fr.rightIdx
        = fr.merged ++ (fr.left.drop fr.leftIdx ++ fr.right.drop fr.rightIdx) := by
          rw [List.append_assoc]
      _ ~ (fr.left.drop fr.leftIdx ++ fr.right.drop fr.rightIdx) ++ fr.merged :=
          List.perm_append_comm
      _ = fr.left.drop fr.leftIdx ++ fr.right.drop fr.rightIdx ++ fr.merged := rfl
  · intro hok st' h'
    rw [hint'] at h'
    cases Option.some.inj h'
    rcases hok st hint with hres | ⟨hs, _⟩
    · exact Or.inl hres
    · rw [hstack] at hs
      exact absurd hs (by simp)

theorem stepOut_hitAdvance (s : SortingState) (st : MergeSortState)
    (fr : MergeFrame) (rest : List MergeFrame) (a b : TaskId)
    (hint : s.internal = some st) (hstack : st.stack = fr :: rest) :
    StepOut s (hitAdvance s st fr rest a b) := by
  have hint' : (hitAdvance s st fr rest a b).internal = some { st with
      stack :=
        advanceFrame fr ((cGet (cacheFromRecord s.cache) a b).getD 0) :: rest } :=
    rfl
  refine ⟨rfl, rfl, rfl, rfl, ?_, by simp [hint, hint'], ?_⟩
  · rw [sessionIds_some _ _ hint, sessionIds_some _ _ hint']
    unfold stList
    simp only [hstack, List.map_cons, List.flatten_cons]
    refine List.Perm.append_left _ ?_
    exact List.Perm.append (frameList_advanceFrame fr _) (List.Perm.refl _)
  · intro hok st' h'
    rw [hint'] at h'
    cases Option.some.inj h'
    rcases hok st hint with hres | ⟨hs, _⟩
    · exact Or.inl hres
    · rw [hstack] at hs
      exact absurd hs (by simp)

theorem stepOut_startMerge (s : SortingState) (st : MergeSortState)
    (l r : List TaskId) (rest : List (List TaskId)) (hint : s.internal = some st)
    (hstack : st.stack = []) (hruns : st.runs = l :: r :: rest) :
    StepOut s (startMerge s st l r rest) := by
  have hint' : (startMerge s st l r rest).internal = some { st with
      runs := rest
      stack := [{ left := l, right := r, leftIdx := 0, rightIdx := 0,
                  merged := [] }] } := rfl
  refine ⟨rfl, rfl, rfl, rfl, ?_, by simp [hint, hint'], ?_⟩
  · rw [sessionIds_some _ _ hint, sessionIds_some _ _ hint']
    unfold stList
    simp only [hstack, hruns, List.map_cons, List.map_nil, List.flatten_cons,
      List.flatten_nil, List.append_nil]
    unfold frameList
    simp only [List.drop_zero, List.append_nil]
    calc rest.flatten ++ (l ++ r)
        ~ (l ++ r) ++ rest.flatten := List.perm_append_comm
      _ = l ++ (r ++ rest.flatten) := by rw [List.append_assoc]
  · intro hok st' h'
    rw [hint'] at h'
    cases Option.some.inj h'
    rcases hok st hint with hres | ⟨_, hr⟩
    · exact Or.inl hres
    · rw [hruns] at hr
      exact absurd hr (by simp)

theorem reqOut_refl_of_done (s : SortingState) (hdone : DoneState s) :
    ReqOut s s none where
  cache_eq := rfl
  asked_eq := rfl
  algo_eq := rfl
  total_eq := rfl
  ids_perm := List.Perm.refl _
  int_some := rfl
  rok := id
  pair_pending := fun _ h => Option.noConfusion h
  done_done := fun _ => hdone

/-- The central bookkeeping lemma about `requestNextPair`: it leaves the
cache, the asked-count and the identifier multiset unchanged; a returned
pair is the uncached current pair of the top frame; a `done` signal means
the run queue has collapsed. -/
theorem reqBasic : ∀ (f : Nat) (s s' : SortingState) (p : Option ComparisonPair),
    requestNextPairF f s = some (s', p) → ReqOut s s' p := by
  intro f
  induction f with
  | zero =>
    intro s s' p h
    exact absurd h (by simp [requestNextPairF])
  | succ f ih =>
    intro s s' p h
    rw [requestNextPairF] at h
    cases hint : s.internal with
    | none =>
      rw [hint] at h
      simp only [Option.some.injEq] at h
      obtain ⟨rfl, rfl⟩ := Prod.mk.injEq .. ▸ h
      exact reqOut_refl_of_done s (Or.inl hint)
    | some st =>
      rw [hint] at h
      simp only at h
      cases hstack : st.stack with
      | cons fr rest =>
        rw [hstack] at h
        simp only at h
        by_cases hdone : fr.left.length ≤ fr.leftIdx ∨ fr.right.length ≤ fr.rightIdx
        · rw [if_pos hdone] at h
          exact stepOut_comp (stepOut_completeFrame s st fr rest hint hstack)
            (ih _ _ _ h)
        · rw [if_neg hdone] at h
          by_cases hhit : cHas (cacheFromRecord s.cache)
              (fr.left.getD fr.leftIdx "") (fr.right.getD fr.rightIdx "") = true
          · rw [if_pos hhit] at h
            exact stepOut_comp
              (stepOut_hitAdvance s st fr rest _ _ hint hstack) (ih _ _ _ h)
          · rw [if_neg (by simpa using hhit)] at h
            simp only [Option.some.injEq] at h
            obtain ⟨rfl, rfl⟩ := Prod.mk.injEq .. ▸ h
            push_neg at hdone
            refine ⟨rfl, rfl, rfl, rfl, List.Perm.refl _, rfl, id, ?_, ?_⟩
            · intro pr hpr
              cases Option.some.inj hpr
              exact ⟨st, fr, rest, hint, hstack, hdone.1, hdone.2, rfl, rfl,
                by simpa using hhit⟩
            · intro hnone
              exact Option.noConfusion hnone
      | nil =>
        rw [hstack] at h
        simp only at h
        cases hruns : st.runs with
        | nil =>
          rw [hruns] at h
          simp only [Option.some.injEq] at h
          obtain ⟨rfl, rfl⟩ := Prod.mk.injEq .. ▸ h
          exact reqOut_refl_of_done s
            (Or.inr ⟨st, hint, hstack, Or.inl hruns⟩)
        | cons r rs =>
          cases rs with
          | nil =>
            rw [hruns] at h
            simp only [Option.some.injEq] at h
            obtain ⟨rfl, rfl⟩ := Prod.mk.injEq .. ▸ h
            have hint' : (setResult s st r).internal = some { st with result := r } :=
              rfl
            refine ⟨rfl, rfl, rfl, rfl, ?_, by simp [hint, hint'], ?_, ?_, ?_⟩
            · rw [sessionIds_some _ _ hint, sessionIds_some _ _ hint']
              exact List.Perm.refl _
            · intro _ st' h'
              rw [hint'] at h'
              cases Option.some.inj h'
              exact Or.inr ⟨hstack, by rw [hruns]⟩
            · intro pr hpr
              exact Option.noConfusion hpr
            · intro _
              exact Or.inr ⟨{ st with result := r }, hint', hstack,
                Or.inr ⟨r, by rw [hruns], rfl⟩⟩
          | cons r2 rest2 =>
            rw [hruns] at h
            simp only at h
            exact stepOut_comp
              (stepOut_startMerge s st r r2 rest2 hint hstack hruns) (ih _ _ _ h)

theorem cHas_cSet_mono (m : CacheMap) (a b x y : TaskId) (r : Int)
    (h : cHas m x y = true) : cHas (cSet m a b r) x y = true := by
  unfold cHas cSet at *
  exact mapHas_of_mapHas_mapSet_prior _ _ _ _ h

/-- The state `commitComparison` returns when `internal` is present. -/
def commitState (s : SortingState) (st : MergeSortState) (a b : TaskId)
    (r : Int) : SortingState :=
  { s with
    comparisonsAsked := s.comparisonsAsked + 1
    cache := cacheToRecord (cSet (cacheFromRecord s.cache) a b r)
    internal := some { st with
      stack :=
        match st.stack with
        | [] => []
        | fr :: rest => advanceFrame fr r :: rest } }

theorem commitComparison_eq (s : SortingState) (st : MergeSortState)
    (a b : TaskId) (r : Int) (hint : s.internal = some st) :
    commitComparison s a b r = some (commitState s st a b r) := by
  unfold commitComparison commitState
  rw [hint]

theorem commitState_perm (s : SortingState) (st : MergeSortState)
    (a b : TaskId) (r : Int) (hint : s.internal = some st) :
    List.Perm (sessionIds (commitState s st a b r)) (sessionIds s) := by
  rw [sessionIds_some _ _ hint, sessionIds_some (commitState s st a b r) _ rfl]
  cases hstack : st.stack with
  | nil =>
    unfold stList
    simp [hstack]
  | cons fr rest =>
    unfold stList
    simp only [hstack, List.map_cons, List.flatten_cons]
    exact List.Perm.append_left _
      (List.Perm.append (frameList_advanceFrame fr r) (List.Perm.refl _))

theorem commitState_rok (s : SortingState) (st : MergeSortState)
    (a b : TaskId) (r : Int) (hint : s.internal = some st)
    (hok : SResultOk s) : SResultOk (commitState s st a b r) := by
  intro st' h'
  simp only [commitState, Option.some.injEq] at h'
  subst h'
  rcases hok st hint with hres | ⟨hs, hr⟩
  · exact Or.inl hres
  · simp only [hs]
    exact Or.inr ⟨trivial, hr⟩

theorem commitState_cache_grows (s : SortingState) (st : MergeSortState)
    (a b : TaskId) (r : Int) (x y : TaskId)
    (h : cHas s.cache x y = true) :
    cHas (commitState s st a b r).cache x y = true := by
  show cHas (cacheToRecord (cSet (cacheFromRecord s.cache) a b r)) x y = true
  unfold cacheToRecord
  refine cHas_cSet_mono _ _ _ _ _ _ ?_
  rw [cHas_cacheFromRecord]
  exact h

-- C6: degenerate inputs

/-- C6 (amended): for `n ∈ {0,1}`, `requestNextPair` immediately signals
done without ever returning a pair, with `comparisonsAsked = 0`; for `n = 1`
`isComplete` holds immediately; but for `n = 0` `isComplete` returns `false`
(the code requires exactly one run, and an empty session has none) even
though `requestNextPair` reports done. -/
theorem C6_degenerate (x : TaskId) (c : Option CacheMap) :
    requestNextPairF 1 (createSession [] c) = some (createSession [] c, none) ∧
    (createSession [] c).comparisonsAsked = 0 ∧
    isComplete (createSession [] c) = false ∧
    requestNextPairF 1 (createSession [x] c)
      = some ({ createSession [x] c with
          internal := some { runs := [[x]], stack := [], result := [x] } },
        none) ∧
    (createSession [x] c).comparisonsAsked = 0 ∧
    isComplete (createSession [x] c) = true :=
  ⟨rfl, rfl, rfl, rfl, rfl, rfl⟩

/-- C6 counterexample: on the empty identifier list the session is *not*
`isComplete` (the claim asserts `isComplete` holds for every `n ∈ {0,1}`). -/
theorem C6_degenerate_counterexample :
    isComplete (createSession [] none) = false ∧
    requestNextPairF 1 (createSession [] none)
      = some (createSession [] none, none) := ⟨rfl, rfl⟩

-- C5: commitComparison performs no validation

/-- The session over `["a","b","c"]` right after the first
`requestNextPair`, awaiting the pair `(a, b)`. -/
def pendingABC : SortingState :=
  { algo := "merge"
    comparisonsAsked := 0
    comparisonsTotal := estimateComparisons 3
    cache := []
    internal := some
      { runs := [["c"]]
        stack := [{ left := ["a"], right := ["b"], leftIdx := 0,
                    rightIdx := 0, merged := [] }]
        result := [] } }

/-- C5 counterexample: `pendingABC` is reached from
`createSession(["a","b","c"])` with pending pair `(a, b)`; committing the
different pair `(c, a)` is not rejected — the call returns a state whose top
frame was silently advanced (it consumed `"a"` from the left run) and whose
cache now holds the `(c, a)` answer. -/
theorem C5_commit_counterexample :
    requestNextPairF 10 (createSession ["a", "b", "c"] none)
      = some (pendingABC, some { a := "a", b := "b" }) ∧
    commitComparison pendingABC "c" "a" 1 ≠ none ∧
    (commitComparison pendingABC "c" "a" 1).map
        (fun s => match s.internal with
          | some st => st.stack
          | none => [])
      = some [{ left := ["a"], right := ["b"], leftIdx := 1, rightIdx := 0,
                merged := ["a"] }] ∧
    (commitComparison pendingABC "c" "a" 1).map
        (fun s => cGet (cacheFromRecord s.cache) "c" "a") = some (some 1) := by
  refine ⟨by decide, by decide, by decide, by decide⟩

/-- C5 (amended): `commitComparison` performs no validation at all.  On any
state with a present internal state — in particular one with no active merge
frame, or awaiting a different pair — it returns normally; it caches the
given result, increments the count, and advances the top frame regardless of
which pair was pending; when no frame is active the run queue and the merge
structure are left completely unchanged.  (Only a state with `internal`
absent makes it throw, the malformed-state case of the spec.) -/
theorem C5_commit_no_validation (s : SortingState) (st : MergeSortState)
    (a b : TaskId) (r : Int) (hint : s.internal = some st) :
    commitComparison s a b r = some (commitState s st a b r) ∧
    (commitState s st a b r).internal = some { st with
      stack := match st.stack with
        | [] => []
        | fr :: rest => advanceFrame fr r :: rest } ∧
    (commitState s st a b r).comparisonsAsked = s.comparisonsAsked + 1 ∧
    (st.stack = [] → (commitState s st a b r).internal = some st) ∧
    (∀ s₀ : SortingState, s₀.internal = none → commitComparison s₀ a b r = none) := by
  refine ⟨commitComparison_eq s st a b r hint, rfl, rfl, ?_, ?_⟩
  · intro hs
    show some { st with
      stack := match st.stack with
        | [] => []
        | fr :: rest => advanceFrame fr r :: rest } = some st
    obtain ⟨runs, stack, result⟩ := st
    simp only at hs
    subst hs
    rfl
  · intro s₀ h₀
    unfold commitComparison
    rw [h₀]

/-- C5 witness: the amended statement at `pendingABC` committing `(c, a)`. -/
theorem C5_commit_no_validation_witness :
    commitComparison pendingABC "c" "a" 1
      = some (commitState pendingABC
          { runs := [["c"]]
            stack := [{ left := ["a"], right := ["b"], leftIdx := 0,
                        rightIdx := 0, merged := [] }]
            result := [] } "c" "a" 1) ∧
    (commitState pendingABC
          { runs := [["c"]]
            stack := [{ left := ["a"], right := ["b"], leftIdx := 0,
                        rightIdx := 0, merged := [] }]
            result := [] } "c" "a" 1).comparisonsAsked
      = pendingABC.comparisonsAsked + 1 :=
  ⟨(C5_commit_no_validation pendingABC _ "c" "a" 1 rfl).1,
    (C5_commit_no_validation pendingABC _ "c" "a" 1 rfl).2.2.1⟩

-- C9: resetWithCache and never re-asking cached pairs

/-- No pair shown to the human during a driver run is present in the cache
the run started with. -/
theorem runF_no_reask (ans : TaskId → TaskId → Int) :
    ∀ (f : Nat) (s sf : SortingState) (tr : List ComparisonPair),
      runF ans f s = some (sf, tr) →
      ∀ pr ∈ tr, cHas s.cache pr.a pr.b = false := by
  intro f
  induction f with
  | zero =>
    intro s sf tr h
    exact absurd h (by simp [runF])
  | succ f ih =>
    intro s sf tr h
    rw [runF] at h
    cases hreq : requestNextPairF (f + 1) s with
    | none =>
      rw [hreq] at h
      exact absurd h (by simp)
    | some out =>
      obtain ⟨s', p⟩ := out
      rw [hreq] at h
      cases p with
      | none =>
        simp only [Option.some.injEq] at h
        obtain ⟨rfl, rfl⟩ := Prod.mk.injEq .. ▸ h
        intro pr hpr
        cases hpr
      | some pr =>
        simp only at h
        have hro := reqBasic (f + 1) s s' (some pr) hreq
        obtain ⟨st, fr, rest, hint', hstack, hli, hri, ha, hb, hhas⟩ :=
          hro.pair_pending pr rfl
        rw [commitComparison_eq s' st pr.a pr.b (ans pr.a pr.b) hint'] at h
        simp only at h
        cases hrun : runF ans f (commitState s' st pr.a pr.b (ans pr.a pr.b)) with
        | none =>
          rw [hrun] at h
          exact absurd h (by simp)
        | some out2 =>
          obtain ⟨sf2, tr2⟩ := out2
          rw [hrun] at h
          simp only [Option.some.injEq] at h
          obtain ⟨rfl, rfl⟩ := Prod.mk.injEq .. ▸ h
          intro q hq
          rcases List.mem_cons.mp hq with rfl | hq2
          · rw [← cHas_cacheFromRecord, ← hro.cache_eq]
            exact hhas
          · have hq3 := ih _ _ _ hrun q hq2
            by_contra hcon
            have hs : cHas s.cache q.a q.b = true := by
              cases hcb : cHas s.cache q.a q.b
              · exact absurd hcb hcon
              · rfl
            have hs' : cHas s'.cache q.a q.b = true := by
              rw [hro.cache_eq]
              exact hs
            have := commitState_cache_grows s' st pr.a pr.b (ans pr.a pr.b)
              q.a q.b hs'
            rw [hq3] at this
            exact Bool.noConfusion this

/-- C9: `resetWithCache(state, itemIds)` is exactly
`createSession(itemIds, state.cache)`, and — because `requestNextPair` only
ever returns an uncached pair and the cache only grows — no pair requested
anywhere in a run restarted from it is already present in that cache. -/
theorem C9_resetWithCache (s : SortingState) (taskIds : List TaskId)
    (ans : TaskId → TaskId → Int) (f : Nat) (sf : SortingState)
    (tr : List ComparisonPair)
    (hrun : runF ans f (resetWithCache s taskIds) = some (sf, tr)) :
    resetWithCache s taskIds = createSession taskIds (some s.cache) ∧
    (∀ pr ∈ tr, cHas s.cache pr.a pr.b = false) ∧
    (tr.all fun pr => !(cHas s.cache pr.a pr.b)) = true := by
  have hmain : ∀ pr ∈ tr, cHas s.cache pr.a pr.b = false := by
    intro pr hpr
    have := runF_no_reask ans f (resetWithCache s taskIds) sf tr hrun pr hpr
    rw [show (resetWithCache s taskIds).cache
        = cacheToRecord (cacheFromRecord s.cache) from rfl] at this
    unfold cacheToRecord at this
    rw [cHas_cacheFromRecord] at this
    exact this
  refine ⟨rfl, hmain, ?_⟩
  rw [List.all_eq_true]
  intro pr hpr
  rw [hmain pr hpr]
  rfl

/-- A prior session value with one cached answer (`a > b`), used to
exercise `resetWithCache`. -/
def priorSession : SortingState :=
  { algo := "merge", comparisonsAsked := 1, comparisonsTotal := 1,
    cache := [("a|b", 1)],
    internal := some { runs := [], stack := [], result := [] } }

/-- The state the resumed run ends in (used only by the C9 witness). -/
def resumedSession : SortingState :=
  { algo := "merge", comparisonsAsked := 1, comparisonsTotal := 5,
    cache := [("a|b", 1), ("a|c", -1)],
    internal := some
      { runs := [["c", "a", "b"]], stack := [], result := ["c", "a", "b"] } }

/-- C9 witness: restarting over `["a","b","c"]` with the prior cache asks
only the one uncached pair `(c, a)` — the cached `(a, b)` is not re-asked. -/
theorem C9_resetWithCache_witness :
    resetWithCache priorSession ["a", "b", "c"]
      = createSession ["a", "b", "c"] (some priorSession.cache) ∧
    (([{ a := "c", b := "a" }] : List ComparisonPair).all
      fun pr => !(cHas priorSession.cache pr.a pr.b)) = true := by
  have h := C9_resetWithCache priorSession ["a", "b", "c"] (fun _ _ => 1) 20
    resumedSession [{ a := "c", b := "a" }] (by decide)
  exact ⟨h.1, h.2.2⟩

-- C10: the identifier-multiset invariant

/-- Session states reachable by `createSession` followed by any protocol-
respecting sequence of `requestNextPair` and `commitComparison` calls (a
commit always answers the pair just returned, with an arbitrary result). -/
inductive Reachable (taskIds : List TaskId) : SortingState → Prop
  | create (c : Option CacheMap) : Reachable taskIds (createSession taskIds c)
  | request (s s' : SortingState) (p : Option ComparisonPair) (f : Nat) :
      Reachable taskIds s → requestNextPairF f s = some (s', p) →
      Reachable taskIds s'
  | commit (s s' s'' : SortingState) (pr : ComparisonPair) (f : Nat) (r : Int) :
      Reachable taskIds s → requestNextPairF f s = some (s', some pr) →
      commitComparison s' pr.a pr.b r = some s'' →
      Reachable taskIds s''

theorem flatten_map_singleton (ids : List TaskId) :
    (ids.map fun id => [id]).flatten = ids := by
  induction ids with
  | nil => rfl
  | cons x rest ih => simp [ih]

/-- The invariant maintained by the protocol: the identifiers across the run
queue and the merge frames are a permutation of the input, the internal
state stays present, and the stored result is empty until completion. -/
theorem reachable_invariant (ids : List TaskId) (s : SortingState)
    (h : Reachable ids s) :
    List.Perm (sessionIds s) ids ∧ s.internal.isSome = true ∧ SResultOk s := by
  induction h with
  | create c =>
    refine ⟨?_, rfl, ?_⟩
    · rw [sessionIds_some _ _ rfl]
      unfold stList
      simp [flatten_map_singleton]
    · intro st h'
      cases Option.some.inj h'
      exact Or.inl rfl
  | request s₀ s' p f _ hreq ih =>
    have hro := reqBasic f s₀ s' p hreq
    exact ⟨hro.ids_perm.trans ih.1, hro.int_some.trans ih.2.1,
      hro.rok ih.2.2⟩
  | commit s₀ s' s'' pr f r _ hreq hcommit ih =>
    have hro := reqBasic f s₀ s' (some pr) hreq
    obtain ⟨st, fr, rest, hint', _, _, _, _, _, _⟩ := hro.pair_pending pr rfl
    rw [commitComparison_eq s' st pr.a pr.b r hint'] at hcommit
    cases Option.some.inj hcommit
    refine ⟨?_, rfl, ?_⟩
    · exact ((commitState_perm s' st pr.a pr.b r hint').trans
        hro.ids_perm).trans ih.1
    · exact commitState_rok s' st pr.a pr.b r hint' (hro.rok ih.2.2)

/-- C10 (amended): for every state reachable under the sequential
request/commit protocol, the multiset of identifiers across the run queue
and the active merge frames (unconsumed suffixes plus merged output) equals
the multiset of the original input; the stored result is empty until
completion and then duplicates the single remaining run (so counting it as
well, as the original claim does, double-counts at completion); hence
`finalize` on a completed session returns a permutation of the input. -/
theorem C10_multiset_invariant (ids : List TaskId) (s : SortingState)
    (h : Reachable ids s) :
    List.Perm (sessionIds s) ids ∧
    SResultOk s ∧
    (isComplete s = true → List.Perm (finalize s) ids) := by
  obtain ⟨hperm, hsome, hok⟩ := reachable_invariant ids s h
  refine ⟨hperm, hok, ?_⟩
  intro hcomp
  cases hint : s.internal with
  | none =>
    rw [hint] at hsome
    exact Bool.noConfusion hsome
  | some st =>
    unfold isComplete at hcomp
    rw [hint] at hcomp
    simp only [Bool.and_eq_true, decide_eq_true_eq] at hcomp
    obtain ⟨hlen, hstack⟩ := hcomp
    obtain ⟨r, hr⟩ := List.length_eq_one.mp hlen
    have hstack' : st.stack = [] := List.length_eq_zero.mp hstack
    have hfin : finalize s = r := by
      unfold finalize
      rw [hint]
      simp only
      rw [hr]
    have hperm' : List.Perm r ids := by
      rw [sessionIds_some _ _ hint] at hperm
      unfold stList at hperm
      rw [hr, hstack'] at hperm
      simpa using hperm
    rw [hfin]
    exact hperm'

/-- The completed single-item session: `createSession ["a"]` after one
`requestNextPair` (which stores the final result). -/
def singletonDone : SortingState :=
  { createSession ["a"] none with
    internal := some { runs := [["a"]], stack := [], result := ["a"] } }

/-- C10 counterexample: in the completed state both `runs` and `result` hold
the final run, so the multiset that *includes the stored result* — as the
claim demands — is `{a, a}`, not the input multiset `{a}`. -/
theorem C10_multiset_counterexample :
    Reachable ["a"] singletonDone ∧
    ¬ List.Perm (sessionIdsWithResult singletonDone) ["a"] :=
  ⟨Reachable.request (createSession ["a"] none) singletonDone none 1
      (Reachable.create none) rfl,
    by decide⟩

/-- C10 witness: the amended invariant at the concrete completed session. -/
theorem C10_multiset_invariant_witness :
    List.Perm (sessionIds singletonDone) ["a"] ∧
    List.Perm (finalize singletonDone) ["a"] :=
  ⟨(C10_multiset_invariant ["a"] singletonDone
      (Reachable.request (createSession ["a"] none) singletonDone none 1
        (Reachable.create none) rfl)).1,
    (C10_multiset_invariant ["a"] singletonDone
      (Reachable.request (createSession ["a"] none) singletonDone none 1
        (Reachable.create none) rfl)).2.2 (by decide)⟩

-- C2: serialization round-trip and resume

/-- JSON-like plain data: strings, numbers and arrays (the session state
serializes to exactly these shapes; JSON `null` is encoded as the string
`"null"`, which cannot collide with any other position of the encoding). -/
inductive Plain where
  | pstr : String → Plain
  | pnum : Int → Plain
  | parr : List Plain → Plain

def encodeIds (l : List TaskId) : Plain := .parr (l.map .pstr)

def decodeStrs : List Plain → Option (List String)
  | [] => some []
  | .pstr s :: rest => (decodeStrs rest).map (s :: ·)
  | _ => none

def decodeIds : Plain → Option (List TaskId)
  | .parr xs => decodeStrs xs
  | _ => none

def encodeFrame (fr : MergeFrame) : Plain :=
  .parr [encodeIds fr.left, encodeIds fr.right, .pnum fr.leftIdx,
    .pnum fr.rightIdx, encodeIds fr.merged]

def decodeFrame : Plain → Option MergeFrame
  | .parr [l, r, .pnum li, .pnum ri, m] =>
    match decodeIds l, decodeIds r, decodeIds m with
    | some l', some r', some m' =>
      some { left := l', right := r', leftIdx := li.toNat,
             rightIdx := ri.toNat, merged := m' }
    | _, _, _ => none
  | _ => none

def decodeFrames : List Plain → Option (List MergeFrame)
  | [] => some []
  | x :: rest =>
    match decodeFrame x, decodeFrames rest with
    | some fr, some frs => some (fr :: frs)
    | _, _ => none

def decodeRunsList : List Plain → Option (List (List TaskId))
  | [] => some []
  | x :: rest =>
    match decodeIds x, decodeRunsList rest with
    | some r, some rs => some (r :: rs)
    | _, _ => none

def encodeInternal : Option MergeSortState → Plain
  | none => .pstr "null"
  | some st => .parr [.parr (st.runs.map encodeIds),
      .parr (st.stack.map encodeFrame), encodeIds st.result]

def decodeInternal : Plain → Option (Option MergeSortState)
  | .pstr "null" => some none
  | .parr [.parr runs, .parr stack, res] =>
    match decodeRunsList runs, decodeFrames stack, decodeIds res with
    | some rs, some frs, some r =>
      some (some { runs := rs, stack := frs, result := r })
    | _, _, _ => none
  | _ => none

def decodeCacheList : List Plain → Option CacheMap
  | [] => some []
  | .parr [.pstr k, .pnum v] :: rest =>
    (decodeCacheList rest).map ((k, v) :: ·)
  | _ => none

def encodeState (s : SortingState) : Plain :=
  .parr [.pstr s.algo, .pnum s.comparisonsAsked, .pnum s.comparisonsTotal,
    .parr (s.cache.map fun kv => .parr [.pstr kv.1, .pnum kv.2]),
    encodeInternal s.internal]

def decodeState : Plain → Option SortingState
  | .parr [.pstr algo, .pnum asked, .pnum total, .parr cache, internal] =>
    match decodeCacheList cache, decodeInternal internal with
    | some c, some int =>
      some { algo := algo, comparisonsAsked := asked.toNat,
             comparisonsTotal := total.toNat, cache := c, internal := int }
    | _, _ => none
  | _ => none

theorem decodeStrs_encode (l : List TaskId) :
    decodeStrs (l.map Plain.pstr) = some l := by
  induction l with
  | nil => rfl
  | cons x rest ih => simp [decodeStrs, ih]

theorem decodeIds_encode (l : List TaskId) : decodeIds (encodeIds l) = some l := by
  unfold encodeIds decodeIds
  exact decodeStrs_encode l

theorem decodeFrame_encode (fr : MergeFrame) :
    decodeFrame (encodeFrame fr) = some fr := by
  unfold encodeFrame decodeFrame
  simp [decodeIds_encode]

theorem decodeFrames_encode (frs : List MergeFrame) :
    decodeFrames (frs.map encodeFrame) = some frs := by
  induction frs with
  | nil => rfl
  | cons fr rest ih => simp [decodeFrames, decodeFrame_encode, ih]

theorem decodeRunsList_encode (rs : List (List TaskId)) :
    decodeRunsList (rs.map encodeIds) = some rs := by
  induction rs with
  | nil => rfl
  | cons r rest ih => simp [decodeRunsList, decodeIds_encode, ih]

theorem decodeInternal_encode (int : Option MergeSortState) :
    decodeInternal (encodeInternal int) = some int := by
  cases int with
  | none => rfl
  | some st =>
    unfold encodeInternal decodeInternal
    simp [decodeRunsList_encode, decodeFrames_encode, decodeIds_encode]

theorem decodeCacheList_encode (m : CacheMap) :
    decodeCacheList (m.map fun kv => Plain.parr [.pstr kv.1, .pnum kv.2])
      = some m := by
  induction m with
  | nil => rfl
  | cons kv rest ih =>
    obtain ⟨k, v⟩ := kv
    simp [decodeCacheList, ih]

/-- Decoding an encoded session state restores it exactly. -/
theorem decodeState_encodeState (s : SortingState) :
    decodeState (encodeState s) = some s := by
  obtain ⟨algo, asked, total, cache, internal⟩ := s
  unfold encodeState decodeState
  simp only
  rw [decodeCacheList_encode, decodeInternal_encode]
  simp

/-- C2: serializing session state to its plain-data form and resuming from
the decoded value produces the same subsequent pair requests and the same
final order as the uninterrupted run, given the same remaining answers. -/
theorem C2_serialize_resume (s s' : SortingState)
    (ans : TaskId → TaskId → Int) (f : Nat)
    (h : decodeState (encodeState s) = some s') :
    s' = s ∧
    runF ans f s' = runF ans f s ∧
    (runF ans f s').map (fun out => out.2)
      = (runF ans f s).map (fun out => out.2) ∧
    (runF ans f s').map (fun out => finalize out.1)
      = (runF ans f s).map (fun out => finalize out.1) := by
  rw [decodeState_encodeState] at h
  have hs : s' = s := (Option.some.inj h).symm ▸ rfl
  subst hs
  exact ⟨rfl, rfl, rfl, rfl⟩

/-- C2 witness: the round trip and resume at a concrete mid-session state
(awaiting the pair `(a, b)` of a three-item session). -/
theorem C2_serialize_resume_witness :
    pendingABC = pendingABC ∧
    runF (fun _ _ => 1) 10 pendingABC = runF (fun _ _ => 1) 10 pendingABC :=
  ⟨(C2_serialize_resume pendingABC pendingABC (fun _ _ => 1) 10
      (by decide)).1,
    (C2_serialize_resume pendingABC pendingABC (fun _ _ => 1) 10
      (by decide)).2.1⟩

-- C1: identifiers, orders, and the canonical-key injectivity

/-- An identifier that does not contain the cache-key delimiter `|`.
(`createCacheKey` concatenates with `|`; identifiers containing `|` can make
two different pairs share a cache key, which breaks the engine — see the C1
counterexample.) -/
def BarFree (x : TaskId) : Prop := '|' ∉ x.data

instance : DecidablePred BarFree := fun x =>
  inferInstanceAs (Decidable ('|' ∉ x.data))

theorem append_bar_inj : ∀ (a c : List Char) (b d : List Char),
    '|' ∉ a → '|' ∉ c → a ++ '|' :: b = c ++ '|' :: d → a = c ∧ b = d := by
  intro a
  induction a with
  | nil =>
    intro c b d _ hc h
    cases c with
    | nil => simpa using h
    | cons x c' =>
      simp only [List.nil_append, List.cons_append, List.cons.injEq] at h
      exact absurd (h.1 ▸ List.mem_cons_self x c') (by
        intro hmem
        exact hc (h.1 ▸ List.mem_cons_self x c'))
  | cons x a' ih =>
    intro c b d ha hc h
    cases c with
    | nil =>
      simp only [List.cons_append, List.nil_append, List.cons.injEq] at h
      exact absurd (h.1 ▸ List.mem_cons_self x a') (by
        intro _
        exact ha (h.1 ▸ List.mem_cons_self x a'))
    | cons y c' =>
      simp only [List.cons_append, List.cons.injEq] at h
      obtain ⟨rfl, h2⟩ := h
      have := ih c' b d (fun hm => ha (List.mem_cons_of_mem _ hm))
        (fun hm => hc (List.mem_cons_of_mem _ hm)) h2
      exact ⟨by rw [this.1], this.2⟩

theorem data_append_bar (u v : String) :
    (u ++ "|" ++ v).data = u.data ++ '|' :: v.data := by
  simp [String.data_append]

/-- For `|`-free identifiers the canonical key determines the unordered
pair. -/
theorem createCacheKey_inj (x y a b : TaskId) (hx : BarFree x) (hy : BarFree y)
    (ha : BarFree a) (hb : BarFree b)
    (h : createCacheKey x y = createCacheKey a b) :
    (x = a ∧ y = b) ∨ (x = b ∧ y = a) := by
  unfold createCacheKey at h
  have split : ∀ (u v w z : String), BarFree u → BarFree w →
      u ++ "|" ++ v = w ++ "|" ++ z → u = w ∧ v = z := by
    intro u v w z hu hw huw
    have hd : u.data ++ '|' :: v.data = w.data ++ '|' :: z.data := by
      rw [← data_append_bar, ← data_append_bar, huw]
    obtain ⟨h1, h2⟩ := append_bar_inj u.data w.data v.data z.data hu hw hd
    exact ⟨string_data_inj _ _ h1, string_data_inj _ _ h2⟩
  by_cases h1 : x.data < y.data <;> by_cases h2 : a.data < b.data
  · rw [if_pos h1, if_pos h2] at h
    exact Or.inl (split x y a b hx ha h)
  · rw [if_pos h1, if_neg h2] at h
    exact Or.inr (split x y b a hx hb h)
  · rw [if_neg h1, if_pos h2] at h
    obtain ⟨e1, e2⟩ := split y x a b hy ha h
    exact Or.inr ⟨e2, e1⟩
  · rw [if_neg h1, if_neg h2] at h
    obtain ⟨e1, e2⟩ := split y x b a hy hb h
    exact Or.inl ⟨e2, e1⟩

/-- `a` is judged strictly more important than `b`. -/
def CmpGt (cmp : TaskId → TaskId → Int) (a b : TaskId) : Prop := cmp a b = 1

instance (cmp : TaskId → TaskId → Int) (a b : TaskId) : Decidable (CmpGt cmp a b) :=
  inferInstanceAs (Decidable (cmp a b = 1))

/-- A strictly descending list: each element beats everything after it. -/
abbrev StrictDesc (cmp : TaskId → TaskId → Int) (l : List TaskId) : Prop :=
  l.Pairwise (CmpGt cmp)

/-- The comparator answers every pair consistently with one total order over
the identifiers. -/
structure ConsistentOrder (cmp : TaskId → TaskId → Int) (ids : List TaskId) :
    Prop where
  asym : ∀ a ∈ ids, ∀ b ∈ ids, cmp b a = - cmp a b
  total : ∀ a ∈ ids, ∀ b ∈ ids, a ≠ b → cmp a b = 1 ∨ cmp a b = -1
  trans : ∀ a ∈ ids, ∀ b ∈ ids, ∀ c ∈ ids,
    cmp a b = 1 → cmp b c = 1 → cmp a c = 1

/-- The engine invariant for a session driven consistently with `cmp` over
the identifier set `ids`. -/
def FrameInv (cmp : TaskId → TaskId → Int) (fr : MergeFrame) : Prop :=
  StrictDesc cmp (fr.left.drop fr.leftIdx) ∧
  StrictDesc cmp (fr.right.drop fr.rightIdx) ∧
  StrictDesc cmp fr.merged ∧
  (∀ x ∈ fr.merged, ∀ y,
    (y ∈ fr.left.drop fr.leftIdx ∨ y ∈ fr.right.drop fr.rightIdx) →
    CmpGt cmp x y) ∧
  fr.leftIdx ≤ fr.left.length ∧ fr.rightIdx ≤ fr.right.length ∧
  fr.merged.length = fr.leftIdx + fr.rightIdx

def SInv (cmp : TaskId → TaskId → Int) (ids : List TaskId)
    (s : SortingState) : Prop :=
  DistinctKeys s.cache ∧
  (∀ a ∈ ids, ∀ b ∈ ids, ∀ v, cGet s.cache a b = some v → v = cmp a b) ∧
  ∃ st, s.internal = some st ∧
    (∀ r ∈ st.runs, StrictDesc cmp r) ∧
    (∀ fr ∈ st.stack, FrameInv cmp fr) ∧
    List.Perm (stList st) ids

-- Membership helpers

theorem mem_stList_of_mem_run {st : MergeSortState} {r : List TaskId}
    {x : TaskId} (hr : r ∈ st.runs) (hx : x ∈ r) : x ∈ stList st := by
  unfold stList
  rw [List.mem_append]
  exact Or.inl (List.mem_flatten.mpr ⟨r, hr, hx⟩)

theorem mem_stList_of_mem_frame {st : MergeSortState} {fr : MergeFrame}
    {x : TaskId} (hfr : fr ∈ st.stack) (hx : x ∈ frameList fr) :
    x ∈ stList st := by
  unfold stList
  rw [List.mem_append]
  exact Or.inr (List.mem_flatten.mpr ⟨frameList fr, List.mem_map_of_mem _ hfr, hx⟩)

theorem frameList_sublist_stList {st : MergeSortState} {fr : MergeFrame}
    (hfr : fr ∈ st.stack) : (frameList fr).Sublist (stList st) := by
  obtain ⟨s1, s2, hsplit⟩ := List.mem_iff_append.mp hfr
  unfold stList
  rw [hsplit]
  simp only [List.map_append, List.map_cons, List.flatten_append,
    List.flatten_cons]
  exact ((List.sublist_append_left (frameList fr)
      ((s2.map frameList).flatten)).trans
    (List.sublist_append_right ((s1.map frameList).flatten) _)).trans
    (List.sublist_append_right st.runs.flatten _)

theorem head_drop_mem {l : List TaskId} {i : Nat} (h : i < l.length) :
    l.getD i "" ∈ l.drop i := by
  rw [List.drop_eq_getElem_cons h]
  rw [List.getD_eq_getElem l "" h]
  exact List.mem_cons_self _ _

theorem frameInv_advance (cmp : TaskId → TaskId → Int) (ids : List TaskId)
    (hord : ConsistentOrder cmp ids) (fr : MergeFrame) (hfr : FrameInv cmp fr)
    (hli : fr.leftIdx < fr.left.length) (hri : fr.rightIdx < fr.right.length)
    (hmem : ∀ x ∈ frameList fr, x ∈ ids)
    (hab : fr.left.getD fr.leftIdx "" ≠ fr.right.getD fr.rightIdx "") (v : Int)
    (hv : v = cmp (fr.left.getD fr.leftIdx "") (fr.right.getD fr.rightIdx "")) :
    FrameInv cmp (advanceFrame fr v) := by
  obtain ⟨hsl, hsr, hsm, hdom, hle1, hle2, hmlen⟩ := hfr
  have hldrop : fr.left.drop fr.leftIdx
      = fr.left.getD fr.leftIdx "" :: fr.left.drop (fr.leftIdx + 1) := by
    rw [List.drop_eq_getElem_cons hli, List.getD_eq_getElem fr.left "" hli]
  have hrdrop : fr.right.drop fr.rightIdx
      = fr.right.getD fr.rightIdx "" :: fr.right.drop (fr.rightIdx + 1) := by
    rw [List.drop_eq_getElem_cons hri, List.getD_eq_getElem fr.right "" hri]
  have hamem : fr.left.getD fr.leftIdx "" ∈ ids := by
    refine hmem _ ?_
    unfold frameList
    rw [List.mem_append, List.mem_append]
    exact Or.inl (Or.inl (head_drop_mem hli))
  have hbmem : fr.right.getD fr.rightIdx "" ∈ ids := by
    refine hmem _ ?_
    unfold frameList
    rw [List.mem_append, List.mem_append]
    exact Or.inl (Or.inr (head_drop_mem hri))
  have hmemL : ∀ y ∈ fr.left.drop fr.leftIdx, y ∈ ids := by
    intro y hy
    refine hmem _ ?_
    unfold frameList
    rw [List.mem_append, List.mem_append]
    exact Or.inl (Or.inl hy)
  have hmemR : ∀ y ∈ fr.right.drop fr.rightIdx, y ∈ ids := by
    intro y hy
    refine hmem _ ?_
    unfold frameList
    rw [List.mem_append, List.mem_append]
    exact Or.inl (Or.inr hy)
  rcases hord.total _ hamem _ hbmem hab with hcmp | hcmp
  · -- left element wins: v = 1, advance takes the left element
    rw [hcmp] at hv
    subst hv
    unfold advanceFrame
    rw [if_pos (Or.inl rfl)]
    have htake : (fr.left.drop fr.leftIdx).take 1 = [fr.left.getD fr.leftIdx ""] := by
      rw [hldrop]
      rfl
    refine ⟨?_, hsr, ?_, ?_, hli, hle2, ?_⟩
    · simp only
      rw [hldrop] at hsl
      exact hsl.of_cons
    · simp only
      rw [htake]
      refine List.pairwise_append.mpr ⟨hsm, List.pairwise_singleton _ _, ?_⟩
      intro x hx y hy
      rw [List.mem_singleton] at hy
      subst hy
      exact hdom x hx _ (Or.inl (head_drop_mem hli))
    · simp only
      intro x hx y hy
      rw [htake, List.mem_append] at hx
      rcases hx with hx | hx
      · rcases hy with hy | hy
        · refine hdom x hx y (Or.inl ?_)
          rw [hldrop]
          exact List.mem_cons_of_mem _ hy
        · exact hdom x hx y (Or.inr hy)
      · rw [List.mem_singleton] at hx
        subst hx
        rcases hy with hy | hy
        · rw [hldrop] at hsl
          exact List.rel_of_pairwise_cons hsl hy
        · rw [hrdrop] at hy
          rcases List.mem_cons.mp hy with rfl | hy'
          · exact hcmp
          · refine hord.trans _ hamem _ hbmem _
              (hmemR y (by rw [hrdrop]; exact List.mem_cons_of_mem _ hy'))
              hcmp ?_
            rw [hrdrop] at hsr
            exact List.rel_of_pairwise_cons hsr hy'
    · simp only [List.length_append, htake]
      simp [hmlen]
      omega
  · -- right element wins: v = -1, advance takes the right element
    rw [hcmp] at hv
    subst hv
    unfold advanceFrame
    rw [if_neg (by
      intro hcon
      rcases hcon with h | h <;> exact absurd h (by decide))]
    have htake : (fr.right.drop fr.rightIdx).take 1
        = [fr.right.getD fr.rightIdx ""] := by
      rw [hrdrop]
      rfl
    have hba : cmp (fr.right.getD fr.rightIdx "") (fr.left.getD fr.leftIdx "") = 1 := by
      rw [hord.asym _ hamem _ hbmem, hcmp]
      rfl
    refine ⟨hsl, ?_, ?_, ?_, hle1, hri, ?_⟩
    · simp only
      rw [hrdrop] at hsr
      exact hsr.of_cons
    · simp only
      rw [htake]
      refine List.pairwise_append.mpr ⟨hsm, List.pairwise_singleton _ _, ?_⟩
      intro x hx y hy
      rw [List.mem_singleton] at hy
      subst hy
      exact hdom x hx _ (Or.inr (head_drop_mem hri))
    · simp only
      intro x hx y hy
      rw [htake, List.mem_append] at hx
      rcases hx with hx | hx
      · rcases hy with hy | hy
        · exact hdom x hx y (Or.inl hy)
        · refine hdom x hx y (Or.inr ?_)
          rw [hrdrop]
          exact List.mem_cons_of_mem _ hy
      · rw [List.mem_singleton] at hx
        subst hx
        rcases hy with hy | hy
        · rw [hldrop] at hy
          rcases List.mem_cons.mp hy with rfl | hy'
          · exact hba
          · refine hord.trans _ hbmem _ hamem _
              (hmemL y (by rw [hldrop]; exact List.mem_cons_of_mem _ hy'))
              hba ?_
            rw [hldrop] at hsl
            exact List.rel_of_pairwise_cons hsl hy'
        · rw [hrdrop] at hsr
          exact List.rel_of_pairwise_cons hsr hy
    · simp only [List.length_append, htake]
      simp [hmlen]
      omega

theorem stList_nodup {ids : List TaskId} {st : MergeSortState}
    (hnd : ids.Nodup) (hperm : List.Perm (stList st) ids) :
    (stList st).Nodup := (hperm.nodup_iff).mpr hnd

theorem top_pair_ne {ids : List TaskId} {st : MergeSortState} {fr : MergeFrame}
    {rest : List MergeFrame} (hnd : ids.Nodup)
    (hperm : List.Perm (stList st) ids) (hstack : st.stack = fr :: rest)
    (hli : fr.leftIdx < fr.left.length) (hri : fr.rightIdx < fr.right.length) :
    fr.left.getD fr.leftIdx "" ≠ fr.right.getD fr.rightIdx "" := by
  have hfr : fr ∈ st.stack := by
    rw [hstack]
    exact List.mem_cons_self _ _
  have hnodup : (frameList fr).Nodup :=
    (stList_nodup hnd hperm).sublist (frameList_sublist_stList hfr)
  unfold frameList at hnodup
  have hnodup2 : (fr.left.drop fr.leftIdx ++ fr.right.drop fr.rightIdx).Nodup :=
    hnodup.sublist (List.sublist_append_left _ _)
  have hdisj := List.disjoint_of_nodup_append hnodup2
  intro heq
  exact hdisj (head_drop_mem hli) (heq ▸ head_drop_mem hri)

theorem mem_ids_of_mem_frame {ids : List TaskId} {st : MergeSortState}
    {fr : MergeFrame} (hperm : List.Perm (stList st) ids)
    (hfr : fr ∈ st.stack) : ∀ x ∈ frameList fr, x ∈ ids := by
  intro x hx
  exact hperm.mem_iff.mp (mem_stList_of_mem_frame hfr hx)

theorem invResult_eq_swap (cmp : TaskId → TaskId → Int) {ids : List TaskId}
    (hord : ConsistentOrder cmp ids) {a b : TaskId} (ha : a ∈ ids)
    (hb : b ∈ ids) : invResult (cmp a b) = cmp b a := by
  rw [hord.asym _ ha _ hb]
  unfold invResult
  by_cases h0 : cmp a b = 0
  · rw [if_pos h0, h0]
    rfl
  · rw [if_neg h0]

theorem sinv_completeFrame (cmp : TaskId → TaskId → Int) (ids : List TaskId)
    (s : SortingState) (st : MergeSortState) (fr : MergeFrame)
    (rest : List MergeFrame) (hint : s.internal = some st)
    (hstack : st.stack = fr :: rest)
    (hdone : fr.left.length ≤ fr.leftIdx ∨ fr.right.length ≤ fr.rightIdx)
    (hsinv : SInv cmp ids s) : SInv cmp ids (completeFrame s st fr rest) := by
  obtain ⟨hdk, hcc, st0, hint0, hruns, hframes, hperm⟩ := hsinv
  rw [hint] at hint0
  cases Option.some.inj hint0
  have hfrinv := hframes fr (by rw [hstack]; exact List.mem_cons_self _ _)
  obtain ⟨hsl, hsr, hsm, hdom, _, _, _⟩ := hfrinv
  refine ⟨hdk, hcc, _, rfl, ?_, ?_, ?_⟩
  · intro r hr
    rw [List.mem_append] at hr
    rcases hr with hr | hr
    · exact hruns r hr
    · rw [List.mem_singleton] at hr
      subst hr
      rcases hdone with hd | hd
      · rw [List.drop_eq_nil_of_le hd]
        rw [List.append_nil]
        refine List.pairwise_append.mpr ⟨hsm, hsr, ?_⟩
        intro x hx y hy
        exact hdom x hx y (Or.inr hy)
      · rw [List.drop_eq_nil_of_le hd]
        rw [List.append_nil]
        refine List.pairwise_append.mpr ⟨hsm, hsl, ?_⟩
        intro x hx y hy
        exact hdom x hx y (Or.inl hy)
  · intro fr' hfr'
    exact hframes fr' (by rw [hstack]; exact List.mem_cons_of_mem _ hfr')
  · have := (stepOut_completeFrame s st fr rest hint hstack).ids_perm
    rw [sessionIds_some _ _ hint, sessionIds_some _ _ rfl] at this
    exact this.trans hperm

theorem sinv_hitAdvance (cmp : TaskId → TaskId → Int) (ids : List TaskId)
    (hnd : ids.Nodup) (hord : ConsistentOrder cmp ids)
    (s : SortingState) (st : MergeSortState) (fr : MergeFrame)
    (rest : List MergeFrame) (hint : s.internal = some st)
    (hstack : st.stack = fr :: rest)
    (hli : fr.leftIdx < fr.left.length) (hri : fr.rightIdx < fr.right.length)
    (hhit : cHas (cacheFromRecord s.cache) (fr.left.getD fr.leftIdx "")
      (fr.right.getD fr.rightIdx "") = true)
    (hsinv : SInv cmp ids s) :
    SInv cmp ids
      (hitAdvance s st fr rest (fr.left.getD fr.leftIdx "")
        (fr.right.getD fr.rightIdx "")) := by
  obtain ⟨hdk, hcc, st0, hint0, hruns, hframes, hperm⟩ := hsinv
  rw [hint] at hint0
  cases Option.some.inj hint0
  have hfold : cacheFromRecord s.cache = s.cache := cacheFromRecord_of_distinct _ hdk
  have hfr : fr ∈ st.stack := by
    rw [hstack]
    exact List.mem_cons_self _ _
  have hmemfr := mem_ids_of_mem_frame hperm hfr
  have hamem : fr.left.getD fr.leftIdx "" ∈ ids := by
    refine hmemfr _ ?_
    unfold frameList
    rw [List.mem_append, List.mem_append]
    exact Or.inl (Or.inl (head_drop_mem hli))
  have hbmem : fr.right.getD fr.rightIdx "" ∈ ids := by
    refine hmemfr _ ?_
    unfold frameList
    rw [List.mem_append, List.mem_append]
    exact Or.inl (Or.inr (head_drop_mem hri))
  have hab := top_pair_ne hnd hperm hstack hli hri
  rw [hfold] at hhit
  rw [cHas_iff_isSome] at hhit
  obtain ⟨v, hv⟩ := Option.isSome_iff_exists.mp hhit
  have hveq : v = cmp (fr.left.getD fr.leftIdx "") (fr.right.getD fr.rightIdx "") :=
    hcc _ hamem _ hbmem v hv
  have hgetD : (cGet (cacheFromRecord s.cache) (fr.left.getD fr.leftIdx "")
      (fr.right.getD fr.rightIdx "")).getD 0 = v := by
    rw [hfold, hv]
    rfl
  refine ⟨hdk, hcc, _, rfl, hruns, ?_, ?_⟩
  · intro fr' hfr'
    rcases List.mem_cons.mp hfr' with rfl | hfr2
    · rw [hgetD]
      exact frameInv_advance cmp ids hord fr
        (hframes fr hfr) hli hri hmemfr hab v hveq
    · exact hframes fr' (by rw [hstack]; exact List.mem_cons_of_mem _ hfr2)
  · have := (stepOut_hitAdvance s st fr rest (fr.left.getD fr.leftIdx "")
      (fr.right.getD fr.rightIdx "") hint hstack).ids_perm
    rw [sessionIds_some _ _ hint, sessionIds_some _ _ rfl] at this
    exact this.trans hperm

theorem sinv_startMerge (cmp : TaskId → TaskId → Int) (ids : List TaskId)
    (s : SortingState) (st : MergeSortState) (l r : List TaskId)
    (rest : List (List TaskId)) (hint : s.internal = some st)
    (hstack : st.stack = []) (hruns : st.runs = l :: r :: rest)
    (hsinv : SInv cmp ids s) : SInv cmp ids (startMerge s st l r rest) := by
  obtain ⟨hdk, hcc, st0, hint0, hrs, hframes, hperm⟩ := hsinv
  rw [hint] at hint0
  cases Option.some.inj hint0
  refine ⟨hdk, hcc, _, rfl, ?_, ?_, ?_⟩
  · intro r' hr'
    exact hrs r' (by rw [hruns]; exact List.mem_cons_of_mem _ (List.mem_cons_of_mem _ hr'))
  · intro fr' hfr'
    rw [List.mem_singleton] at hfr'
    subst hfr'
    refine ⟨?_, ?_, List.Pairwise.nil, ?_, ?_, ?_, rfl⟩
    · simp only [List.drop_zero]
      exact hrs l (by rw [hruns]; exact List.mem_cons_self _ _)
    · simp only [List.drop_zero]
      exact hrs r (by rw [hruns]; exact List.mem_cons_of_mem _ (List.mem_cons_self _ _))
    · intro x hx
      cases hx
    · exact Nat.zero_le _
    · exact Nat.zero_le _
  · have := (stepOut_startMerge s st l r rest hint hstack hruns).ids_perm
    rw [sessionIds_some _ _ hint, sessionIds_some _ _ rfl] at this
    exact this.trans hperm

theorem sinv_commit (cmp : TaskId → TaskId → Int) (ids : List TaskId)
    (hnd : ids.Nodup) (hbar : ∀ i ∈ ids, BarFree i)
    (hord : ConsistentOrder cmp ids) (s : SortingState) (st : MergeSortState)
    (fr : MergeFrame) (rest : List MergeFrame) (hint : s.internal = some st)
    (hstack : st.stack = fr :: rest)
    (hli : fr.leftIdx < fr.left.length) (hri : fr.rightIdx < fr.right.length)
    (hsinv : SInv cmp ids s) :
    SInv cmp ids (commitState s st (fr.left.getD fr.leftIdx "")
      (fr.right.getD fr.rightIdx "")
      (cmp (fr.left.getD fr.leftIdx "") (fr.right.getD fr.rightIdx ""))) := by
  obtain ⟨hdk, hcc, st0, hint0, hruns, hframes, hperm⟩ := hsinv
  rw [hint] at hint0
  cases Option.some.inj hint0
  have hfold : cacheFromRecord s.cache = s.cache := cacheFromRecord_of_distinct _ hdk
  have hfr : fr ∈ st.stack := by
    rw [hstack]
    exact List.mem_cons_self _ _
  have hmemfr := mem_ids_of_mem_frame hperm hfr
  have hamem : fr.left.getD fr.leftIdx "" ∈ ids := by
    refine hmemfr _ ?_
    unfold frameList
    rw [List.mem_append, List.mem_append]
    exact Or.inl (Or.inl (head_drop_mem hli))
  have hbmem : fr.right.getD fr.rightIdx "" ∈ ids := by
    refine hmemfr _ ?_
    unfold frameList
    rw [List.mem_append, List.mem_append]
    exact Or.inl (Or.inr (head_drop_mem hri))
  have hab := top_pair_ne hnd hperm hstack hli hri
  have hcache : (commitState s st (fr.left.getD fr.leftIdx "")
      (fr.right.getD fr.rightIdx "")
      (cmp (fr.left.getD fr.leftIdx "") (fr.right.getD fr.rightIdx ""))).cache
      = cSet s.cache (fr.left.getD fr.leftIdx "") (fr.right.getD fr.rightIdx "")
        (cmp (fr.left.getD fr.leftIdx "") (fr.right.getD fr.rightIdx "")) := by
    show cacheToRecord (cSet (cacheFromRecord s.cache) _ _ _) = _
    rw [hfold]
    rfl
  refine ⟨?_, ?_, ?_⟩
  · rw [hcache]
    exact distinctKeys_mapSet _ _ _ hdk
  · rw [hcache]
    intro x hx y hy w hw
    by_cases hkey : createCacheKey (fr.left.getD fr.leftIdx "")
        (fr.right.getD fr.rightIdx "") = createCacheKey x y
    · rcases createCacheKey_inj _ _ x y (hbar _ hamem) (hbar _ hbmem)
        (hbar _ hx) (hbar _ hy) hkey with ⟨ha', hb'⟩ | ⟨ha', hb'⟩
      · subst ha'; subst hb'
        rw [cGet_cSet_self] at hw
        exact (Option.some.inj hw).symm
      · subst ha'; subst hb'
        rw [cGet_cSet_swap _ _ _ hab] at hw
        rw [← Option.some.inj hw]
        exact invResult_eq_swap cmp hord hamem hbmem
    · rw [cGet_cSet_ne _ _ _ _ _ _ hkey] at hw
      exact hcc _ hx _ hy w hw
  · refine ⟨_, rfl, hruns, ?_, ?_⟩
    · intro fr' hfr'
      rw [hstack] at hfr'
      simp only at hfr'
      rcases List.mem_cons.mp hfr' with rfl | hfr2
      · exact frameInv_advance cmp ids hord fr (hframes fr hfr) hli hri
          hmemfr hab _ rfl
      · exact hframes fr' (by rw [hstack]; exact List.mem_cons_of_mem _ hfr2)
    · have := commitState_perm s st (fr.left.getD fr.leftIdx "")
        (fr.right.getD fr.rightIdx "")
        (cmp (fr.left.getD fr.leftIdx "") (fr.right.getD fr.rightIdx "")) hint
      rw [sessionIds_some _ _ hint, sessionIds_some _ _ rfl] at this
      exact this.trans hperm

-- Comparison-count bound

/-- Worst-case comparisons of queue merging for a queue of run sizes: merge
the first two sizes (`a + b - 1` comparisons at worst), append the combined
run at the back.  Fuelled structurally (the queue shrinks by one per step,
so `l.length` fuel always suffices). -/
def worstQueueF : Nat → List Nat → Nat
  | 0, _ => 0
  | _ + 1, [] => 0
  | _ + 1, [_] => 0
  | f + 1, a :: b :: rest => a + b - 1 + worstQueueF f (rest ++ [a + b])

def worstQueue (l : List Nat) : Nat := worstQueueF l.length l

theorem worstQueueF_fuel : ∀ (f₁ : Nat) (l : List Nat) (f₂ : Nat),
    l.length ≤ f₁ → l.length ≤ f₂ → worstQueueF f₁ l = worstQueueF f₂ l := by
  intro f₁
  induction f₁ with
  | zero =>
    intro l f₂ h1 _
    rw [Nat.le_zero] at h1
    rw [List.length_eq_zero.mp h1]
    cases f₂ <;> rfl
  | succ f ih =>
    intro l f₂ h1 h2
    match l, f₂ with
    | [], 0 => rfl
    | [], g + 1 => rfl
    | [a], g + 1 => rfl
    | a :: b :: rest, g + 1 =>
      show a + b - 1 + worstQueueF f (rest ++ [a + b])
          = a + b - 1 + worstQueueF g (rest ++ [a + b])
      have hlen : (rest ++ [a + b]).length = rest.length + 1 := by simp
      simp only [List.length_cons] at h1 h2
      rw [ih (rest ++ [a + b]) g (by omega) (by omega)]

theorem worstQueue_cons2 (a b : Nat) (rest : List Nat) :
    worstQueue (a :: b :: rest) = a + b - 1 + worstQueue (rest ++ [a + b]) := by
  unfold worstQueue
  show a + b - 1 + worstQueueF (rest.length + 1) (rest ++ [a + b]) = _
  rw [worstQueueF_fuel (rest.length + 1) (rest ++ [a + b])
    (rest ++ [a + b]).length (by simp) (by simp)]

/-- Worst-case remaining comparisons of an in-progress frame. -/
def frameBudget (fr : MergeFrame) : Nat :=
  if fr.leftIdx < fr.left.length ∧ fr.rightIdx < fr.right.length then
    (fr.left.length - fr.leftIdx) + (fr.right.length - fr.rightIdx) - 1
  else 0

/-- The size of the run a frame will eventually push on the queue. -/
def frameSize (fr : MergeFrame) : Nat := fr.left.length + fr.right.length

/-- Upper bound on the human-visible comparisons still to come. -/
def stateBound (s : SortingState) : Nat :=
  match s.internal with
  | none => 0
  | some st =>
    (st.stack.map frameBudget).sum +
      worstQueue (st.runs.map List.length ++ st.stack.map frameSize)

theorem stateBound_some (s : SortingState) (st : MergeSortState)
    (h : s.internal = some st) :
    stateBound s = (st.stack.map frameBudget).sum +
      worstQueue (st.runs.map List.length ++ st.stack.map frameSize) := by
  unfold stateBound
  rw [h]

theorem advanceFrame_left (fr : MergeFrame) (v : Int) :
    (advanceFrame fr v).left = fr.left ∧ (advanceFrame fr v).right = fr.right := by
  unfold advanceFrame
  by_cases h : v = 1 ∨ v = 0 <;> simp [h]

theorem frameBudget_advance (fr : MergeFrame) (v : Int)
    (hli : fr.leftIdx < fr.left.length) (hri : fr.rightIdx < fr.right.length) :
    frameBudget (advanceFrame fr v) + 1 ≤ frameBudget fr := by
  unfold frameBudget advanceFrame
  by_cases h : v = 1 ∨ v = 0
  · rw [if_pos h]
    simp only
    by_cases h2 : fr.leftIdx + 1 < fr.left.length ∧ fr.rightIdx < fr.right.length
    · rw [if_pos h2, if_pos ⟨hli, hri⟩]
      omega
    · rw [if_neg h2, if_pos ⟨hli, hri⟩]
      omega
  · rw [if_neg h]
    simp only
    by_cases h2 : fr.leftIdx < fr.left.length ∧ fr.rightIdx + 1 < fr.right.length
    · rw [if_pos h2, if_pos ⟨hli, hri⟩]
      omega
    · rw [if_neg h2, if_pos ⟨hli, hri⟩]
      omega

theorem bound_completeFrame (s : SortingState) (st : MergeSortState)
    (fr : MergeFrame) (rest : List MergeFrame) (hint : s.internal = some st)
    (hstack : st.stack = fr :: rest)
    (hdone : fr.left.length ≤ fr.leftIdx ∨ fr.right.length ≤ fr.rightIdx)
    (hle1 : fr.leftIdx ≤ fr.left.length) (hle2 : fr.rightIdx ≤ fr.right.length)
    (hmlen : fr.merged.length = fr.leftIdx + fr.rightIdx) :
    stateBound (completeFrame s st fr rest) = stateBound s := by
  rw [stateBound_some s st hint, stateBound_some (completeFrame s st fr rest) _ rfl]
  simp only [hstack, List.map_cons, List.sum_cons, List.map_append,
    List.map_cons, List.map_nil]
  have hbud : frameBudget fr = 0 := by
    unfold frameBudget
    rw [if_neg (by omega)]
  have hsize : (fr.merged ++ fr.left.drop fr.leftIdx ++
      fr.right.drop fr.rightIdx).length = frameSize fr := by
    unfold frameSize
    simp only [List.length_append, List.length_drop]
    omega
  rw [hbud]
  simp only [List.map_append, List.map_cons, List.map_nil, hsize]
  rw [Nat.zero_add]
  congr 1
  rw [List.append_assoc]
  rfl

theorem bound_hitAdvance (s : SortingState) (st : MergeSortState)
    (fr : MergeFrame) (rest : List MergeFrame) (a b : TaskId)
    (hint : s.internal = some st) (hstack : st.stack = fr :: rest)
    (hli : fr.leftIdx < fr.left.length) (hri : fr.rightIdx < fr.right.length) :
    stateBound (hitAdvance s st fr rest a b) + 1 ≤ stateBound s := by
  rw [stateBound_some s st hint, stateBound_some (hitAdvance s st fr rest a b) _ rfl]
  simp only [hstack, List.map_cons, List.sum_cons]
  have hsz : frameSize (advanceFrame fr
      ((cGet (cacheFromRecord s.cache) a b).getD 0)) = frameSize fr := by
    unfold frameSize
    obtain ⟨h1, h2⟩ := advanceFrame_left fr
      ((cGet (cacheFromRecord s.cache) a b).getD 0)
    rw [h1, h2]
  rw [hsz]
  have := frameBudget_advance fr ((cGet (cacheFromRecord s.cache) a b).getD 0)
    hli hri
  omega

theorem bound_startMerge (s : SortingState) (st : MergeSortState)
    (l r : List TaskId) (rest : List (List TaskId)) (hint : s.internal = some st)
    (hstack : st.stack = []) (hruns : st.runs = l :: r :: rest) :
    stateBound (startMerge s st l r rest) ≤ stateBound s := by
  rw [stateBound_some s st hint, stateBound_some (startMerge s st l r rest) _ rfl]
  simp only [hstack, hruns, List.map_cons, List.map_nil, List.sum_cons,
    List.sum_nil, List.append_nil, List.nil_append]
  rw [worstQueue_cons2]
  have hfb : frameBudget ⟨l, r, 0, 0, []⟩ ≤ l.length + r.length - 1 := by
    unfold frameBudget
    dsimp only
    by_cases h : 0 < l.length ∧ 0 < r.length
    · rw [if_pos h]
      omega
    · rw [if_neg h]
      omega
  have hfs : frameSize ⟨l, r, 0, 0, []⟩ = l.length + r.length := rfl
  rw [hfs]
  omega

/-- `requestNextPair` preserves the engine invariant and never increases the
remaining-comparisons bound. -/
theorem reqSorted (cmp : TaskId → TaskId → Int) (ids : List TaskId)
    (hnd : ids.Nodup) (hord : ConsistentOrder cmp ids) :
    ∀ (f : Nat) (s s' : SortingState) (p : Option ComparisonPair),
      SInv cmp ids s → requestNextPairF f s = some (s', p) →
      SInv cmp ids s' ∧ stateBound s' ≤ stateBound s := by
  intro f
  induction f with
  | zero =>
    intro s s' p _ h
    exact absurd h (by simp [requestNextPairF])
  | succ f ih =>
    intro s s' p hsinv h
    rw [requestNextPairF] at h
    obtain ⟨hdk, hcc, st, hint, hruns, hframes, hperm⟩ := hsinv
    have hsinv : SInv cmp ids s := ⟨hdk, hcc, st, hint, hruns, hframes, hperm⟩
    rw [hint] at h
    simp only at h
    cases hstack : st.stack with
    | cons fr rest =>
      rw [hstack] at h
      simp only at h
      by_cases hdone : fr.left.length ≤ fr.leftIdx ∨ fr.right.length ≤ fr.rightIdx
      · rw [if_pos hdone] at h
        obtain ⟨_, _, _, _, hle1, hle2, hmlen⟩ :=
          hframes fr (by rw [hstack]; exact List.mem_cons_self _ _)
        obtain ⟨h1, h2⟩ := ih _ _ _
          (sinv_completeFrame cmp ids s st fr rest hint hstack hdone hsinv) h
        exact ⟨h1, h2.trans
          (bound_completeFrame s st fr rest hint hstack hdone hle1 hle2
            hmlen).le⟩
      · rw [if_neg hdone] at h
        push_neg at hdone
        obtain ⟨hli, hri⟩ := hdone
        by_cases hhit : cHas (cacheFromRecord s.cache)
            (fr.left.getD fr.leftIdx "") (fr.right.getD fr.rightIdx "") = true
        · rw [if_pos hhit] at h
          obtain ⟨h1, h2⟩ := ih _ _ _
            (sinv_hitAdvance cmp ids hnd hord s st fr rest hint hstack hli hri
              hhit hsinv) h
          refine ⟨h1, h2.trans ?_⟩
          have := bound_hitAdvance s st fr rest (fr.left.getD fr.leftIdx "")
            (fr.right.getD fr.rightIdx "") hint hstack hli hri
          omega
        · rw [if_neg (by simpa using hhit)] at h
          simp only [Option.some.injEq] at h
          obtain ⟨rfl, rfl⟩ := Prod.mk.injEq .. ▸ h
          exact ⟨hsinv, Nat.le_refl _⟩
    | nil =>
      rw [hstack] at h
      simp only at h
      cases hruns2 : st.runs with
      | nil =>
        rw [hruns2] at h
        simp only [Option.some.injEq] at h
        obtain ⟨rfl, rfl⟩ := Prod.mk.injEq .. ▸ h
        exact ⟨hsinv, Nat.le_refl _⟩
      | cons r rs =>
        cases rs with
        | nil =>
          rw [hruns2] at h
          simp only [Option.some.injEq] at h
          obtain ⟨rfl, rfl⟩ := Prod.mk.injEq .. ▸ h
          refine ⟨⟨hdk, hcc, _, rfl, hruns, hframes, ?_⟩, ?_⟩
          · exact hperm
          · rw [stateBound_some s st hint,
              stateBound_some (setResult s st r) _ rfl]
        | cons r2 rest2 =>
          rw [hruns2] at h
          simp only at h
          obtain ⟨h1, h2⟩ := ih _ _ _
            (sinv_startMerge cmp ids s st r r2 rest2 hint hstack hruns2 hsinv) h
          exact ⟨h1, h2.trans
            (bound_startMerge s st r r2 rest2 hint hstack hruns2)⟩

theorem bound_commit (s : SortingState) (st : MergeSortState) (fr : MergeFrame)
    (rest : List MergeFrame) (a b : TaskId) (r : Int)
    (hint : s.internal = some st) (hstack : st.stack = fr :: rest)
    (hli : fr.leftIdx < fr.left.length) (hri : fr.rightIdx < fr.right.length) :
    stateBound (commitState s st a b r) + 1 ≤ stateBound s := by
  have hint' : (commitState s st a b r).internal
      = some { st with stack := advanceFrame fr r :: rest } := by
    dsimp only [commitState]
    rw [hstack]
  rw [stateBound_some s st hint, stateBound_some _ _ hint']
  simp only [hstack, List.map_cons, List.sum_cons]
  have hsz : frameSize (advanceFrame fr r) = frameSize fr := by
    unfold frameSize
    rw [(advanceFrame_left fr r).1, (advanceFrame_left fr r).2]
  rw [hsz]
  have hb := frameBudget_advance fr r hli hri
  omega

/-- The driver run preserves the invariant, ends in a done state, and asks
at most `stateBound` questions. -/
theorem runSorted (cmp : TaskId → TaskId → Int) (ids : List TaskId)
    (hnd : ids.Nodup) (hbar : ∀ i ∈ ids, BarFree i)
    (hord : ConsistentOrder cmp ids) :
    ∀ (f : Nat) (s sf : SortingState) (tr : List ComparisonPair),
      SInv cmp ids s → SResultOk s → runF cmp f s = some (sf, tr) →
      SInv cmp ids sf ∧ SResultOk sf ∧ DoneState sf ∧
        tr.length + stateBound sf ≤ stateBound s := by
  intro f
  induction f with
  | zero =>
    intro s sf tr _ _ h
    exact absurd h (by simp [runF])
  | succ f ih =>
    intro s sf tr hsinv hrok h
    rw [runF] at h
    cases hreq : requestNextPairF (f + 1) s with
    | none =>
      rw [hreq] at h
      exact absurd h (by simp)
    | some out =>
      obtain ⟨s', p⟩ := out
      rw [hreq] at h
      cases p with
      | none =>
        simp only [Option.some.injEq] at h
        obtain ⟨rfl, rfl⟩ := Prod.mk.injEq .. ▸ h
        have hro := reqBasic (f + 1) s s' none hreq
        obtain ⟨h1, h2⟩ := reqSorted cmp ids hnd hord (f + 1) s s' none hsinv hreq
        exact ⟨h1, hro.rok hrok, hro.done_done rfl, by simpa using h2⟩
      | some pr =>
        simp only at h
        obtain ⟨pa, pb⟩ := pr
        have hro := reqBasic (f + 1) s s' (some ⟨pa, pb⟩) hreq
        obtain ⟨st, fr, rest, hint', hstack, hli, hri, ha, hb, hhas⟩ :=
          hro.pair_pending ⟨pa, pb⟩ rfl
        simp only at ha hb
        obtain ⟨hsinv', hbd'⟩ :=
          reqSorted cmp ids hnd hord (f + 1) s s' (some ⟨pa, pb⟩) hsinv hreq
        rw [commitComparison_eq s' st pa pb (cmp pa pb) hint'] at h
        simp only at h
        cases hrun : runF cmp f (commitState s' st pa pb (cmp pa pb)) with
        | none =>
          rw [hrun] at h
          exact absurd h (by simp)
        | some out2 =>
          obtain ⟨sf2, tr2⟩ := out2
          rw [hrun] at h
          simp only [Option.some.injEq] at h
          obtain ⟨rfl, rfl⟩ := Prod.mk.injEq .. ▸ h
          have hcommit : SInv cmp ids (commitState s' st pa pb (cmp pa pb)) := by
            rw [ha, hb]
            exact sinv_commit cmp ids hnd hbar hord s' st fr rest hint' hstack
              hli hri hsinv'
          have hcrok : SResultOk (commitState s' st pa pb (cmp pa pb)) :=
            commitState_rok s' st pa pb (cmp pa pb) hint' (hro.rok hrok)
          obtain ⟨g1, g2, g3, g4⟩ := ih _ _ _ hcommit hcrok hrun
          refine ⟨g1, g2, g3, ?_⟩
          have hbc := bound_commit s' st fr rest pa pb (cmp pa pb) hint' hstack
            hli hri
          simp only [List.length_cons]
          omega

theorem finalize_of_done (cmp : TaskId → TaskId → Int) (ids : List TaskId)
    (sf : SortingState) (hsinv : SInv cmp ids sf) (hrok : SResultOk sf)
    (hdone : DoneState sf) :
    StrictDesc cmp (finalize sf) ∧ List.Perm (finalize sf) ids := by
  obtain ⟨_, _, st, hint, hruns, _, hperm⟩ := hsinv
  rcases hdone with hnone | ⟨st2, hint2, hstack, hcases⟩
  · rw [hint] at hnone
    exact Option.noConfusion hnone
  · rw [hint] at hint2
    cases Option.some.inj hint2
    rcases hcases with hempty | ⟨r, hr, hres⟩
    · have hres0 : st.result = [] := by
        rcases hrok st hint with h | ⟨_, hr2⟩
        · exact h
        · rw [hempty] at hr2
          exact absurd hr2 (by simp)
      have hfin : finalize sf = [] := by
        unfold finalize
        rw [hint]
        simp only
        rw [hempty, hres0]
      have hnil : stList st = [] := by
        unfold stList
        rw [hempty, hstack]
        rfl
      rw [hfin]
      refine ⟨List.Pairwise.nil, ?_⟩
      rw [← hnil]
      exact hperm
  -- single remaining run
    · have hfin : finalize sf = r := by
        unfold finalize
        rw [hint]
        simp only
        rw [hr]
      have hlist : stList st = r := by
        unfold stList
        rw [hr, hstack]
        simp
      rw [hfin]
      refine ⟨hruns r (by rw [hr]; exact List.mem_cons_self _ _), ?_⟩
      rw [← hlist]
      exact hperm

theorem strictDesc_perm_eq (cmp : TaskId → TaskId → Int) :
    ∀ (l₁ l₂ : List TaskId),
      (∀ a ∈ l₁, ∀ b ∈ l₁, CmpGt cmp a b → CmpGt cmp b a → False) →
      List.Perm l₁ l₂ → StrictDesc cmp l₁ → StrictDesc cmp l₂ → l₁ = l₂ := by
  intro l₁
  induction l₁ with
  | nil =>
    intro l₂ _ hp _ _
    rw [(hp.symm.eq_nil : l₂ = [])]
  | cons x t ih =>
    intro l₂ hanti hp h1 h2
    cases l₂ with
    | nil => exact absurd hp.eq_nil (by simp)
    | cons y t₂ =>
      have hxy : x = y := by
        by_contra hne
        have hx2 : x ∈ y :: t₂ := hp.mem_iff.mp (List.mem_cons_self _ _)
        have hy1 : y ∈ x :: t := hp.mem_iff.mpr (List.mem_cons_self _ _)
        rcases List.mem_cons.mp hx2 with h | hxmem
        · exact hne h
        rcases List.mem_cons.mp hy1 with h | hymem
        · exact hne h.symm
        exact hanti x (List.mem_cons_self _ _) y (List.mem_cons_of_mem _ hymem)
          (List.rel_of_pairwise_cons h1 hymem)
          (List.rel_of_pairwise_cons h2 hxmem)
      subst hxy
      have hpt : List.Perm t t₂ := hp.cons_inv
      rw [ih t₂ (fun a ha b hb => hanti a (List.mem_cons_of_mem _ ha) b
        (List.mem_cons_of_mem _ hb)) hpt h1.of_cons h2.of_cons]

theorem ceilLog2F_eq_clog : ∀ (f m : Nat), m ≤ f → ceilLog2F f m = Nat.clog 2 m := by
  intro f
  induction f with
  | zero =>
    intro m hm
    rw [Nat.le_zero.mp hm, Nat.clog_zero_right]
    rfl
  | succ f ih =>
    intro m hm
    by_cases h1 : m ≤ 1
    · unfold ceilLog2F
      rw [if_pos h1, Nat.clog_of_right_le_one h1]
    · push_neg at h1
      unfold ceilLog2F
      rw [if_neg (by omega)]
      rw [Nat.clog_of_two_le (by norm_num) h1]
      have harg : (m + 2 - 1) / 2 = (m + 1) / 2 := by omega
      rw [harg, ih ((m + 1) / 2) (by omega)]

set_option maxHeartbeats 2000000 in
theorem worstQueue_singletons_bound :
    ∀ n, n < 51 → 3 ≤ n → worstQueue (List.replicate n 1) ≤ n * ceilLog2F n n := by
  decide

theorem map_length_singletons (ids : List TaskId) :
    (ids.map fun id => [id]).map List.length = List.replicate ids.length 1 := by
  induction ids with
  | nil => rfl
  | cons x rest ih => simp [ih, List.replicate_succ]

theorem stateBound_createSession (ids : List TaskId) (c : Option CacheMap) :
    stateBound (createSession ids c) = worstQueue (List.replicate ids.length 1) := by
  rw [stateBound_some _ _ rfl]
  simp only [List.map_nil, List.sum_nil, List.append_nil, Nat.zero_add]
  rw [map_length_singletons]

theorem sinv_createSession (cmp : TaskId → TaskId → Int) (ids : List TaskId) :
    SInv cmp ids (createSession ids none) := by
  refine ⟨by simp [DistinctKeys, createSession, cacheFromRecord, cacheToRecord],
    ?_, _, rfl, ?_, ?_, ?_⟩
  · intro a _ b _ v hv
    simp [cGet, createSession, cacheFromRecord, cacheToRecord, mapGet] at hv
  · intro r hr
    rcases List.mem_map.mp hr with ⟨x, _, rfl⟩
    exact List.pairwise_singleton _ _
  · intro fr hfr
    cases hfr
  · unfold stList
    simp [flatten_map_singleton]

/-- Comparator used for concrete runs: rank identifiers by their position in
a fixed list (earlier = more important), giving a total order. -/
def rankOf (l : List TaskId) (x : TaskId) : Int :=
  match l.indexOf? x with
  | some i => ((l.length - i : Nat) : Int)
  | none => 0

def cmpOf (l : List TaskId) (a b : TaskId) : Int :=
  if rankOf l a > rankOf l b then 1
  else if rankOf l a < rankOf l b then -1
  else 0

/-- C1 (amended): for every duplicate-free identifier list of size
`3 ≤ n ≤ 50` whose identifiers are free of the cache-key delimiter `|` (so
that distinct pairs cannot collide on one cache key), and every total order
used to answer all requested comparisons, the driver run terminates with
`finalize` yielding exactly that total order — the strictly descending
permutation of the input, which is unique — and the number of human-visible
pair requests is at most `n·⌈log₂ n⌉`, the worst case of the queue-based
merge sort the engine implements. -/
theorem C1_merge_sort_correct (ids : List TaskId) (cmp : TaskId → TaskId → Int)
    (hnd : ids.Nodup) (hbar : ∀ i ∈ ids, BarFree i)
    (hord : ConsistentOrder cmp ids)
    (hlen3 : 3 ≤ ids.length) (hlen50 : ids.length ≤ 50)
    (f : Nat) (sf : SortingState) (tr : List ComparisonPair)
    (hrun : runF cmp f (createSession ids none) = some (sf, tr)) :
    List.Perm (finalize sf) ids ∧
    StrictDesc cmp (finalize sf) ∧
    (∀ l, List.Perm l ids → StrictDesc cmp l → l = finalize sf) ∧
    tr.length ≤ ids.length * Nat.clog 2 ids.length := by
  have hs0 : SInv cmp ids (createSession ids none) := sinv_createSession cmp ids
  have hrok0 : SResultOk (createSession ids none) := by
    intro st h
    cases Option.some.inj h
    exact Or.inl rfl
  obtain ⟨hsf, hrokf, hdonef, hcount⟩ :=
    runSorted cmp ids hnd hbar hord f _ sf tr hs0 hrok0 hrun
  obtain ⟨hdesc, hperm⟩ := finalize_of_done cmp ids sf hsf hrokf hdonef
  refine ⟨hperm, hdesc, ?_, ?_⟩
  · intro l hl hdl
    refine strictDesc_perm_eq cmp l (finalize sf) ?_ (hl.trans hperm.symm) hdl
      hdesc
    intro a ha b hb hab hba
    have ha' : a ∈ ids := hl.subset ha
    have hb' : b ∈ ids := hl.subset hb
    have hab' : cmp a b = 1 := hab
    have hba' : cmp b a = 1 := hba
    have hasym := hord.asym a ha' b hb'
    rw [hab', hba'] at hasym
    exact absurd hasym (by decide)
  · have hB := stateBound_createSession ids none
    have hW := worstQueue_singletons_bound ids.length (by omega) hlen3
    rw [ceilLog2F_eq_clog ids.length ids.length (Nat.le_refl _)] at hW
    omega

/-- The final state of the C1 witness run (three items, order `b > a > c`). -/
def c1Final : SortingState :=
  { algo := "merge", comparisonsAsked := 3, comparisonsTotal := 5,
    cache := [("a|b", -1), ("b|c", 1), ("a|c", 1)],
    internal := some
      { runs := [["b", "a", "c"]], stack := [], result := ["b", "a", "c"] } }

/-- C1 witness: the amended theorem on the three-item session with the total
order `b > a > c`: the run finalizes to exactly `[b, a, c]` after `3 ≤ 3·2`
requests. -/
theorem C1_merge_sort_correct_witness :
    List.Perm (finalize c1Final) ["a", "b", "c"] ∧
    ([{ a := "a", b := "b" }, { a := "c", b := "b" },
      { a := "c", b := "a" }] : List ComparisonPair).length
      ≤ (["a", "b", "c"] : List TaskId).length
          * Nat.clog 2 (["a", "b", "c"] : List TaskId).length := by
  have h := C1_merge_sort_correct ["a", "b", "c"] (cmpOf ["b", "a", "c"])
    (by decide) (by decide) ⟨by decide, by decide, by decide⟩ (by decide)
    (by decide) 30 c1Final
    [{ a := "a", b := "b" }, { a := "c", b := "b" }, { a := "c", b := "a" }]
    (by decide)
  exact ⟨h.1, h.2.2.2⟩

/-- C1 counterexample: the identifiers `["a", "b|c", "a|b", "c"]` (n = 4,
duplicate-free) with the total order `a > c > a|b > b|c`.  The pairs
`(a, b|c)` and `(a|b, c)` share the cache key `"a|b|c"`, so the answer to the
first is silently replayed for the second, and the run — every *requested*
pair answered consistently with the order — finalizes to
`[a, a|b, c, b|c]`, which is not the total order `[a, c, a|b, b|c]`. -/
theorem C1_merge_sort_counterexample :
    (["a", "b|c", "a|b", "c"] : List TaskId).Nodup ∧
    ConsistentOrder (cmpOf ["a", "c", "a|b", "b|c"]) ["a", "b|c", "a|b", "c"] ∧
    (runF (cmpOf ["a", "c", "a|b", "b|c"]) 40
        (createSession ["a", "b|c", "a|b", "c"] none)).map
      (fun out => finalize out.1) = some ["a", "a|b", "c", "b|c"] ∧
    StrictDesc (cmpOf ["a", "c", "a|b", "b|c"]) ["a", "c", "a|b", "b|c"] ∧
    List.Perm (["a", "c", "a|b", "b|c"] : List TaskId) ["a", "b|c", "a|b", "c"] ∧
    (["a", "a|b", "c", "b|c"] : List TaskId) ≠ ["a", "c", "a|b", "b|c"] ∧
    createCacheKey "a" "b|c" = createCacheKey "a|b" "c" := by
  exact ⟨by decide, ⟨by decide, by decide, by decide⟩, by decide, by decide,
    by decide, by decide, by decide⟩

/-- C7 (amended): on a tie or a win for the left element (`result` 1 or 0)
`advanceFrame` appends the current left element to `merged` and advances
`leftIdx`; otherwise it appends the current right element and advances
`rightIdx`.  Consequently — provided the identifiers are duplicate-free and
free of the cache-key delimiter `|` — a completed session's final order is
strictly descending: its head beats every other identifier under the
comparator that answered all requests. -/
theorem C7_merge_policy (ids : List TaskId) (cmp : TaskId → TaskId → Int)
    (hnd : ids.Nodup) (hbar : ∀ i ∈ ids, BarFree i)
    (hord : ConsistentOrder cmp ids) (hne : ids ≠ [])
    (f : Nat) (sf : SortingState) (tr : List ComparisonPair)
    (hrun : runF cmp f (createSession ids none) = some (sf, tr)) :
    (∀ fr : MergeFrame, ∀ r : Int, (r = 1 ∨ r = 0) →
      advanceFrame fr r =
        { fr with
            merged := fr.merged ++ (fr.left.drop fr.leftIdx).take 1
            leftIdx := fr.leftIdx + 1 }) ∧
    (∀ fr : MergeFrame, ∀ r : Int, ¬(r = 1 ∨ r = 0) →
      advanceFrame fr r =
        { fr with
            merged := fr.merged ++ (fr.right.drop fr.rightIdx).take 1
            rightIdx := fr.rightIdx + 1 }) ∧
    finalize sf ≠ [] ∧
    (∀ x ∈ ids, x ≠ (finalize sf).headI → cmp ((finalize sf).headI) x = 1) := by
  have hs0 : SInv cmp ids (createSession ids none) := sinv_createSession cmp ids
  have hrok0 : SResultOk (createSession ids none) := by
    intro st h
    cases Option.some.inj h
    exact Or.inl rfl
  obtain ⟨hsf, hrokf, hdonef, -⟩ :=
    runSorted cmp ids hnd hbar hord f _ sf tr hs0 hrok0 hrun
  obtain ⟨hdesc, hperm⟩ := finalize_of_done cmp ids sf hsf hrokf hdonef
  have hfne : finalize sf ≠ [] := by
    intro h
    rw [h] at hperm
    exact hne hperm.symm.eq_nil
  refine ⟨?_, ?_, hfne, ?_⟩
  · intro fr r hr
    unfold advanceFrame
    rw [if_pos hr]
  · intro fr r hr
    unfold advanceFrame
    rw [if_neg hr]
  · intro x hx hxh
    obtain ⟨h, t, hht⟩ := List.exists_cons_of_ne_nil hfne
    have hxf : x ∈ finalize sf := (hperm.mem_iff).mpr hx
    rw [hht] at hxf hdesc hxh ⊢
    have := (List.pairwise_cons.mp hdesc).1
    cases hxf with
    | head => exact absurd rfl hxh
    | tail _ hxt => exact this x hxt

/-- The final state of the C7 witness run (three items, order `b > a > c`,
input order `["c", "a", "b"]`). -/
def c7Final : SortingState :=
  { algo := "merge", comparisonsAsked := 2, comparisonsTotal := 5,
    cache := [("a|c", 1), ("a|b", -1)],
    internal := some
      { runs := [["b", "a", "c"]], stack := [], result := ["b", "a", "c"] } }

/-- C7 witness: the amended theorem on the three-item session with the total
order `b > a > c` started from input order `["c", "a", "b"]`: the finalized
order is nonempty and its head `"b"` beats the other identifier `"c"`. -/
theorem C7_merge_policy_witness :
    finalize c7Final ≠ [] ∧
    cmpOf ["b", "a", "c"] ((finalize c7Final).headI) "c" = 1 := by
  have h := C7_merge_policy ["c", "a", "b"] (cmpOf ["b", "a", "c"])
    (by decide) (by decide) ⟨by decide, by decide, by decide⟩ (by decide) 30
    c7Final
    [{ a := "c", b := "a" }, { a := "b", b := "a" }]
    (by decide)
  exact ⟨h.2.2.1, h.2.2.2 "c" (by decide) (by decide)⟩

/-- C7 counterexample: with identifiers `["a|b", "c", "a", "b|c"]` and the
total order `a > c > b|c > a|b`, the pairs `(a, b|c)` and `(a|b, c)` collide
on the cache key `"a|b|c"`, and the completed session's final head is `"c"`
even though `"a"` — a member of the list — beats `"c"`: the first element is
not the most important task. -/
theorem C7_merge_policy_counterexample :
    (["a|b", "c", "a", "b|c"] : List TaskId).Nodup ∧
    ConsistentOrder (cmpOf ["a", "c", "b|c", "a|b"]) ["a|b", "c", "a", "b|c"] ∧
    (runF (cmpOf ["a", "c", "b|c", "a|b"]) 40
        (createSession ["a|b", "c", "a", "b|c"] none)).map
      (fun out => (finalize out.1).head?) = some (some "c") ∧
    "a" ∈ (["a|b", "c", "a", "b|c"] : List TaskId) ∧
    cmpOf ["a", "c", "b|c", "a|b"] "a" "c" = 1 := by
  exact ⟨by decide, ⟨by decide, by decide, by decide⟩, by decide, by decide,
    by decide⟩
